import Mathlib

/-! The human-readable writer for Echo logs (package `humanlog`).

A shallow embedding of `humanlog.go`.  `New` and `HumanReadableLogger.Write`
are translated from the Go source; the standard-library calls they make
(`regexp.ReplaceAll`, `json.Decoder.Decode`, `strings.Split`, `fmt.Fprintf`)
are modelled from the documented behaviour of the Go library.

Go byte slices and strings are both lists of bytes; a byte is a natural
number below 256.
-/

namespace humanlog

/-- One byte of a Go string or byte slice. -/
abbrev Byte := Nat

/-! ## unicode/utf8 -/

/-- The replacement rune U+FFFD that `utf8.RuneError` stands for. -/
def RuneError : Nat := 0xFFFD

/-- Go `utf8.EncodeRune`: the UTF-8 bytes of a rune; a surrogate or a value
above U+10FFFF is written as U+FFFD. -/
def EncodeRune (r : Nat) : List Byte :=
  if r ≤ 0x7F then [r]
  else if r ≤ 0x7FF then [0xC0 + r / 64, 0x80 + r % 64]
  else if 0x10FFFF < r ∨ (0xD800 ≤ r ∧ r ≤ 0xDFFF) then [0xEF, 0xBF, 0xBD]
  else if r ≤ 0xFFFF then [0xE0 + r / 4096, 0x80 + r / 64 % 64, 0x80 + r % 64]
  else [0xF0 + r / 262144, 0x80 + r / 4096 % 64, 0x80 + r / 64 % 64, 0x80 + r % 64]

/-- Go `utf8.DecodeRune`: the first rune of `p` and its width in bytes.  An
invalid or truncated encoding gives `(RuneError, 1)`, the empty input
`(RuneError, 0)`. -/
def DecodeRune : List Byte → Nat × Nat
  | [] => (RuneError, 0)
  | p0 :: rest =>
    if p0 < 0x80 then (p0, 1)
    else if p0 < 0xC2 ∨ 0xF4 < p0 then (RuneError, 1)
    else
      let lo := if p0 = 0xE0 then 0xA0 else if p0 = 0xF0 then 0x90 else 0x80
      let hi := if p0 = 0xED then 0x9F else if p0 = 0xF4 then 0x8F else 0xBF
      if p0 < 0xE0 then
        match rest with
        | b1 :: _ =>
          if lo ≤ b1 ∧ b1 ≤ hi then (p0 % 32 * 64 + b1 % 64, 2) else (RuneError, 1)
        | _ => (RuneError, 1)
      else if p0 < 0xF0 then
        match rest with
        | b1 :: b2 :: _ =>
          if lo ≤ b1 ∧ b1 ≤ hi ∧ 0x80 ≤ b2 ∧ b2 ≤ 0xBF then
            (p0 % 16 * 4096 + b1 % 64 * 64 + b2 % 64, 3)
          else (RuneError, 1)
        | _ => (RuneError, 1)
      else
        match rest with
        | b1 :: b2 :: b3 :: _ =>
          if lo ≤ b1 ∧ b1 ≤ hi ∧ 0x80 ≤ b2 ∧ b2 ≤ 0xBF ∧ 0x80 ≤ b3 ∧ b3 ≤ 0xBF then
            (p0 % 8 * 262144 + b1 % 64 * 4096 + b2 % 64 * 64 + b3 % 64, 4)
          else (RuneError, 1)
        | _ => (RuneError, 1)

/-- The loop of `utf8.RuneCountInString`: one rune per `DecodeRune` step.
`fuel` bounds the number of steps; every step consumes a byte, so the length
of the input is enough. -/
def runeCountLoop : Nat → List Byte → Nat
  | 0, _ => 0
  | _ + 1, [] => 0
  | fuel + 1, c :: rest =>
    1 + runeCountLoop fuel ((c :: rest).drop (DecodeRune (c :: rest)).2)

/-- Go `utf8.RuneCountInString`: the number of runes of `s`, an invalid byte
counting as one rune. -/
def RuneCountInString (s : List Byte) : Nat :=
  runeCountLoop s.length s

/-- The bytes of a Go string literal, written here as a Lean string. -/
def bytes (s : String) : List Byte :=
  s.data.flatMap fun c => EncodeRune c.toNat

/-! ## strings -/

/-- Go `strings.Split(s, sep)` for a one-byte separator, the only kind `Write`
passes: the pieces of `s` between the occurrences of `sep`.  The result is
never empty: a string without `sep` gives the one piece `s`. -/
def Split (s : List Byte) (sep : Byte) : List (List Byte) :=
  match s with
  | [] => [[]]
  | c :: rest =>
    if c = sep then [] :: Split rest sep
    else
      match Split rest sep with
      | [] => [[c]]
      | piece :: pieces => (c :: piece) :: pieces

/-! ## regexp -/

/-- A compiled pattern of the shape `New` compiles: a literal byte string,
then zero or more bytes of one range, then one closing byte outside that
range. -/
structure Regexp where
  lit : List Byte
  lo : Byte
  hi : Byte
  close : Byte
  deriving DecidableEq, Repr

/-- Strip `pre` from the front of `s`. -/
def stripLit : List Byte → List Byte → Option (List Byte)
  | [], s => some s
  | _ :: _, [] => none
  | a :: pre, c :: s => if a = c then stripLit pre s else none

/-- A match of the pattern anchored at the front of `s`: what is left of `s`
after the match.  The repetition is greedy, and the closing byte lies outside
the repeated range, so there is at most one match at a position. -/
def Regexp.matchAt (re : Regexp) (s : List Byte) : Option (List Byte) :=
  match stripLit re.lit s with
  | none => none
  | some r =>
    match r.dropWhile fun c => re.lo ≤ c ∧ c ≤ re.hi with
    | [] => none
    | c :: r2 => if c = re.close then some r2 else none

/-- The loop of `Regexp.ReplaceAll`: scan left to right, replace the leftmost
match and go on behind it; a byte at which no match starts is copied. -/
def Regexp.replaceLoop (re : Regexp) (repl : List Byte) : Nat → List Byte → List Byte
  | 0, s => s
  | _ + 1, [] => []
  | fuel + 1, c :: rest =>
    match re.matchAt (c :: rest) with
    | some r => repl ++ re.replaceLoop repl fuel r
    | none => c :: re.replaceLoop repl fuel rest

/-- Go `(*Regexp).ReplaceAll(src, repl)` for a replacement without `$`: every
leftmost non-overlapping match in `src` is replaced by `repl`. -/
def Regexp.ReplaceAll (re : Regexp) (src repl : List Byte) : List Byte :=
  re.replaceLoop repl src.length src

/-- A letter or digit of ASCII (`isalnum` of `regexp/syntax`). -/
def isalnum (c : Byte) : Bool :=
  (48 ≤ c ∧ c ≤ 57) ∨ (65 ≤ c ∧ c ≤ 90) ∨ (97 ≤ c ∧ c ≤ 122)

/-- The value of a hexadecimal digit. -/
def hexVal (c : Byte) : Option Nat :=
  if 48 ≤ c ∧ c ≤ 57 then some (c - 48)
  else if 97 ≤ c ∧ c ≤ 102 then some (c - 87)
  else if 65 ≤ c ∧ c ≤ 70 then some (c - 55)
  else none

/-- One literal byte at the front of a pattern text, as `regexp/syntax`
reads it: `\xhh` is the byte with that hexadecimal code, a backslash before
an ASCII byte that is no letter or digit is that byte, and a byte that is not
a metacharacter is itself. -/
def parseLiteral : List Byte → Option (Byte × List Byte)
  | [] => none
  | [c] => if c < 0x80 ∧ c ∉ bytes "\\.+*?()|[]\x7b\x7d^$" then some (c, []) else none
  | c :: e :: rest =>
    if c = 92 then
      if e = 120 then
        match rest with
        | a :: b :: rest2 =>
          match hexVal a, hexVal b with
          | some a, some b => if a < 8 then some (a * 16 + b, rest2) else none
          | _, _ => none
        | _ => none
      else if e < 0x80 ∧ !isalnum e then some (e, rest)
      else none
    else if c < 0x80 ∧ c ∉ bytes "\\.+*?()|[]\x7b\x7d^$" then some (c, e :: rest)
    else none

/-- The loop of `Compile`: literals are collected in `lit` until the
repeated range `[lo-hi]*` is met, behind which one literal ends the pattern. -/
def compileLoop : Nat → List Byte → List Byte → Option Regexp
  | 0, _, _ => none
  | fuel + 1, pat, lit =>
    match pat with
    | 91 :: lo :: 45 :: hi :: 93 :: 42 :: rest =>
      match parseLiteral rest with
      | some (close, []) =>
        if isalnum lo ∧ isalnum hi ∧ lo ≤ hi ∧ ¬(lo ≤ close ∧ close ≤ hi) then
          some { lit := lit, lo := lo, hi := hi, close := close }
        else none
      | _ => none
    | _ =>
      match parseLiteral pat with
      | some (c, rest) => compileLoop fuel rest (lit ++ [c])
      | none => none

/-- Go `regexp.Compile` on the patterns of the shape above.  `none` stands for
the nil `*Regexp` that comes with an error, here also for a pattern of
another shape. -/
def Compile (expr : List Byte) : Option Regexp :=
  compileLoop (expr.length + 1) expr []

/-! ## encoding/json: the scanner -/

/-- The result codes of a scanner step (`scanner.go`). -/
inductive ScanOp where
  | scanContinue
  | scanBeginLiteral
  | scanBeginObject
  | scanObjectKey
  | scanObjectValue
  | scanEndObject
  | scanBeginArray
  | scanArrayValue
  | scanEndArray
  | scanSkipSpace
  | scanEnd
  | scanError
  deriving DecidableEq, Repr

/-- The entries of the scanner's stack of open composite values. -/
inductive ParseState where
  | parseObjectKey
  | parseObjectValue
  | parseArrayValue
  deriving DecidableEq, Repr

/-- The state functions of `scanner.go`; the field `scanner.step` holds one. -/
inductive StepFn where
  | stateBeginValueOrEmpty
  | stateBeginValue
  | stateBeginStringOrEmpty
  | stateBeginString
  | stateEndValue
  | stateEndTop
  | stateInString
  | stateInStringEsc
  | stateInStringEscU
  | stateInStringEscU1
  | stateInStringEscU12
  | stateInStringEscU123
  | stateNeg
  | state1
  | state0
  | stateDot
  | stateDot0
  | stateE
  | stateESign
  | stateE0
  | stateT
  | stateTr
  | stateTru
  | stateF
  | stateFa
  | stateFal
  | stateFals
  | stateN
  | stateNu
  | stateNul
  | stateError
  deriving DecidableEq, Repr

/-- The JSON scanning state machine.  `parseState` has the innermost open
value first; `err` is the message of the syntax error, once one is found. -/
structure scanner where
  step : StepFn
  endTop : Bool
  parseState : List ParseState
  err : Option (List Byte)
  deriving DecidableEq, Repr

/-- The nesting depth beyond which the scanner reports an error. -/
def maxNestingDepth : Nat := 10000

/-- The state of `scanner.reset`. -/
def scanner.reset : scanner :=
  { step := .stateBeginValue, endTop := false, parseState := [], err := none }

/-- The lower-case hexadecimal digit of a value below 16. -/
def lowerhex (n : Nat) : Byte :=
  if n < 10 then 48 + n else 87 + n

/-- The function `quoteChar` of `scanner.go`: a byte as it is shown in a
syntax error, between single quotes.  Apart from the two quote characters it
is `strconv.Quote` of the one-rune string: printable runes as they are,
control bytes as `\a \b \f \n \r \t \v` or `\xhh`, and the non-printable runes
U+0080 to U+00A0 and U+00AD as `\u00hh`. -/
def quoteChar (c : Byte) : List Byte :=
  if c = 39 then bytes "'\\''"
  else if c = 34 then bytes "'\"'"
  else if c = 92 then bytes "'\\\\'"
  else if (0x20 ≤ c ∧ c ≤ 0x7E) ∨ (0xA1 ≤ c ∧ c ≤ 0xFF ∧ c ≠ 0xAD) then
    [39] ++ EncodeRune c ++ [39]
  else if c = 7 then bytes "'\\a'"
  else if c = 8 then bytes "'\\b'"
  else if c = 12 then bytes "'\\f'"
  else if c = 10 then bytes "'\\n'"
  else if c = 13 then bytes "'\\r'"
  else if c = 9 then bytes "'\\t'"
  else if c = 11 then bytes "'\\v'"
  else if c < 0x20 ∨ c = 0x7F then
    bytes "'\\x" ++ [lowerhex (c / 16), lowerhex (c % 16)] ++ [39]
  else
    bytes "'\\u00" ++ [lowerhex (c / 16 % 16), lowerhex (c % 16)] ++ [39]

/-- The method `scanner.error`: record a syntax error at byte `c`. -/
def scanner.error (s : scanner) (c : Byte) (context : String) : scanner × ScanOp :=
  ({ s with step := .stateError,
            err := some (bytes "invalid character " ++ quoteChar c ++ bytes " " ++
              bytes context) },
   .scanError)

/-- The method `scanner.pushParseState`. -/
def scanner.pushParseState (s : scanner) (c : Byte) (newParseState : ParseState)
    (successState : ScanOp) : scanner × ScanOp :=
  let s1 := { s with parseState := newParseState :: s.parseState }
  if s1.parseState.length ≤ maxNestingDepth then (s1, successState)
  else s1.error c "exceeded max depth"

/-- The method `scanner.popParseState`. -/
def scanner.popParseState (s : scanner) : scanner :=
  let rest := s.parseState.tail
  if rest.length = 0 then { s with parseState := rest, step := .stateEndTop, endTop := true }
  else { s with parseState := rest, step := .stateEndValue }

/-- The JSON white space bytes. -/
def isSpace (c : Byte) : Bool :=
  c = 32 ∨ c = 9 ∨ c = 13 ∨ c = 10

/-- A decimal digit. -/
def isDigit (c : Byte) : Bool :=
  48 ≤ c ∧ c ≤ 57

/-- A hexadecimal digit. -/
def isHex (c : Byte) : Bool :=
  (48 ≤ c ∧ c ≤ 57) ∨ (97 ≤ c ∧ c ≤ 102) ∨ (65 ≤ c ∧ c ≤ 70)

/-- The state after a top-level value: only white space may follow. -/
def stateEndTop (s : scanner) (c : Byte) : scanner × ScanOp :=
  if !isSpace c then ((s.error c "after top-level value").1, .scanEnd)
  else (s, .scanEnd)

/-- The state after a value: the end of the input value, or the separator the
enclosing object or array allows. -/
def stateEndValue (s : scanner) (c : Byte) : scanner × ScanOp :=
  match s.parseState with
  | [] => stateEndTop { s with step := .stateEndTop, endTop := true } c
  | ps :: outer =>
    if isSpace c then ({ s with step := .stateEndValue }, .scanSkipSpace)
    else
      match ps with
      | .parseObjectKey =>
        if c = 58 then
          ({ s with parseState := .parseObjectValue :: outer, step := .stateBeginValue },
           .scanObjectKey)
        else s.error c "after object key"
      | .parseObjectValue =>
        if c = 44 then
          ({ s with parseState := .parseObjectKey :: outer, step := .stateBeginString },
           .scanObjectValue)
        else if c = 125 then (s.popParseState, .scanEndObject)
        else s.error c "after object key:value pair"
      | .parseArrayValue =>
        if c = 44 then ({ s with step := .stateBeginValue }, .scanArrayValue)
        else if c = 93 then (s.popParseState, .scanEndArray)
        else s.error c "after array element"

/-- The state at the beginning of a value. -/
def stateBeginValue (s : scanner) (c : Byte) : scanner × ScanOp :=
  if isSpace c then (s, .scanSkipSpace)
  else if c = 123 then
    ({ s with step := .stateBeginStringOrEmpty }).pushParseState c .parseObjectKey
      .scanBeginObject
  else if c = 91 then
    ({ s with step := .stateBeginValueOrEmpty }).pushParseState c .parseArrayValue
      .scanBeginArray
  else if c = 34 then ({ s with step := .stateInString }, .scanBeginLiteral)
  else if c = 45 then ({ s with step := .stateNeg }, .scanBeginLiteral)
  else if c = 48 then ({ s with step := .state0 }, .scanBeginLiteral)
  else if c = 116 then ({ s with step := .stateT }, .scanBeginLiteral)
  else if c = 102 then ({ s with step := .stateF }, .scanBeginLiteral)
  else if c = 110 then ({ s with step := .stateN }, .scanBeginLiteral)
  else if 49 ≤ c ∧ c ≤ 57 then ({ s with step := .state1 }, .scanBeginLiteral)
  else s.error c "looking for beginning of value"

/-- The state after `[`. -/
def stateBeginValueOrEmpty (s : scanner) (c : Byte) : scanner × ScanOp :=
  if isSpace c then (s, .scanSkipSpace)
  else if c = 93 then stateEndValue s c
  else stateBeginValue s c

/-- The state after `,` in an object: a key must follow. -/
def stateBeginString (s : scanner) (c : Byte) : scanner × ScanOp :=
  if isSpace c then (s, .scanSkipSpace)
  else if c = 34 then ({ s with step := .stateInString }, .scanBeginLiteral)
  else s.error c "looking for beginning of object key string"

/-- The state after `{`. -/
def stateBeginStringOrEmpty (s : scanner) (c : Byte) : scanner × ScanOp :=
  if isSpace c then (s, .scanSkipSpace)
  else if c = 125 then
    stateEndValue { s with parseState := .parseObjectValue :: s.parseState.tail } c
  else stateBeginString s c

/-- The state after a digit of the integer part that allows no further digit
(`state0`), shared by the number states that may end the number. -/
def state0 (s : scanner) (c : Byte) : scanner × ScanOp :=
  if c = 46 then ({ s with step := .stateDot }, .scanContinue)
  else if c = 101 ∨ c = 69 then ({ s with step := .stateE }, .scanContinue)
  else stateEndValue s c

/-- The state after `e` and an optional sign of an exponent. -/
def stateESign (s : scanner) (c : Byte) : scanner × ScanOp :=
  if isDigit c then ({ s with step := .stateE0 }, .scanContinue)
  else s.error c "in exponent of numeric literal"

/-- One step of the scanner: the state function held in `s.step`, applied to
the byte `c`. -/
def scanner.stepByte (s : scanner) (c : Byte) : scanner × ScanOp :=
  let expect (want : Byte) (next : StepFn) (context : String) : scanner × ScanOp :=
    if c = want then ({ s with step := next }, .scanContinue) else s.error c context
  let hex (next : StepFn) : scanner × ScanOp :=
    if isHex c then ({ s with step := next }, .scanContinue)
    else s.error c "in \\u hexadecimal character escape"
  match s.step with
  | .stateBeginValueOrEmpty => stateBeginValueOrEmpty s c
  | .stateBeginValue => stateBeginValue s c
  | .stateBeginStringOrEmpty => stateBeginStringOrEmpty s c
  | .stateBeginString => stateBeginString s c
  | .stateEndValue => stateEndValue s c
  | .stateEndTop => stateEndTop s c
  | .stateInString =>
    if c = 34 then ({ s with step := .stateEndValue }, .scanContinue)
    else if c = 92 then ({ s with step := .stateInStringEsc }, .scanContinue)
    else if c < 0x20 then s.error c "in string literal"
    else (s, .scanContinue)
  | .stateInStringEsc =>
    if c = 98 ∨ c = 102 ∨ c = 110 ∨ c = 114 ∨ c = 116 ∨ c = 92 ∨ c = 47 ∨ c = 34 then
      ({ s with step := .stateInString }, .scanContinue)
    else if c = 117 then ({ s with step := .stateInStringEscU }, .scanContinue)
    else s.error c "in string escape code"
  | .stateInStringEscU => hex .stateInStringEscU1
  | .stateInStringEscU1 => hex .stateInStringEscU12
  | .stateInStringEscU12 => hex .stateInStringEscU123
  | .stateInStringEscU123 => hex .stateInString
  | .stateNeg =>
    if c = 48 then ({ s with step := .state0 }, .scanContinue)
    else if 49 ≤ c ∧ c ≤ 57 then ({ s with step := .state1 }, .scanContinue)
    else s.error c "in numeric literal"
  | .state1 =>
    if isDigit c then ({ s with step := .state1 }, .scanContinue) else state0 s c
  | .state0 => state0 s c
  | .stateDot =>
    if isDigit c then ({ s with step := .stateDot0 }, .scanContinue)
    else s.error c "after decimal point in numeric literal"
  | .stateDot0 =>
    if isDigit c then (s, .scanContinue)
    else if c = 101 ∨ c = 69 then ({ s with step := .stateE }, .scanContinue)
    else stateEndValue s c
  | .stateE =>
    if c = 43 ∨ c = 45 then ({ s with step := .stateESign }, .scanContinue)
    else stateESign s c
  | .stateESign => stateESign s c
  | .stateE0 => if isDigit c then (s, .scanContinue) else stateEndValue s c
  | .stateT => expect 114 .stateTr "in literal true (expecting 'r')"
  | .stateTr => expect 117 .stateTru "in literal true (expecting 'u')"
  | .stateTru => expect 101 .stateEndValue "in literal true (expecting 'e')"
  | .stateF => expect 97 .stateFa "in literal false (expecting 'a')"
  | .stateFa => expect 108 .stateFal "in literal false (expecting 'l')"
  | .stateFal => expect 115 .stateFals "in literal false (expecting 's')"
  | .stateFals => expect 101 .stateEndValue "in literal false (expecting 'e')"
  | .stateN => expect 117 .stateNu "in literal null (expecting 'u')"
  | .stateNu => expect 108 .stateNul "in literal null (expecting 'l')"
  | .stateNul => expect 108 .stateEndValue "in literal null (expecting 'l')"
  | .stateError => (s, .scanError)

/-! ## encoding/json: reading one value -/

/-- A Go `error` value, identified by its message. -/
abbrev GoError := List Byte

/-- A run-time panic of the Go program. -/
inductive Panic where
  | indexOutOfRange (index length : Nat)
  | nilDereference
  | decoderOutOfSync
  deriving DecidableEq, Repr

/-- The function `nonSpace` of `stream.go`: some byte is not white space. -/
def nonSpace (b : List Byte) : Bool :=
  b.any fun c => !isSpace c

/-- The loop of `Decoder.readValue` over the bytes not yet scanned: the bytes
of the first JSON value of the input, white space before it included.  The
scan stops right behind the closing bracket of an object or array, and in
front of the byte that ends a number or literal.  `buf` is the whole input,
looked at only to tell an empty input from a truncated one. -/
def readValueLoop (buf : List Byte) : scanner → List Byte → Except GoError (List Byte)
  | s, [] =>
    if (s.stepByte 32).2 = .scanEnd then .ok []
    else if nonSpace buf then .error (bytes "unexpected EOF")
    else .error (bytes "EOF")
  | s, c :: rest =>
    match s.stepByte c with
    | (_, .scanEnd) => .ok []
    | (s1, .scanEndObject) =>
      match stateEndValue s1 32 with
      | (_, .scanEnd) => .ok [c]
      | (s2, _) => (readValueLoop buf s2 rest).map (c :: ·)
    | (s1, .scanEndArray) =>
      match stateEndValue s1 32 with
      | (_, .scanEnd) => .ok [c]
      | (s2, _) => (readValueLoop buf s2 rest).map (c :: ·)
    | (s1, .scanError) => .error (s1.err.getD [])
    | (s1, _) => (readValueLoop buf s1 rest).map (c :: ·)

/-- Go `Decoder.readValue` on a reader that holds `buf`: the first JSON value,
or the syntax error, `unexpected EOF` for a truncated value, `EOF` for an
input of white space only. -/
def readValue (buf : List Byte) : Except GoError (List Byte) :=
  readValueLoop buf scanner.reset buf

/-! ## encoding/json: string literals -/

/-- The function `getu4` of `decode.go`: the number of a `\uXXXX` escape at
the front of `s`. -/
def getu4 : List Byte → Option Nat
  | 92 :: 117 :: a :: b :: c :: d :: _ =>
    match hexVal a, hexVal b, hexVal c, hexVal d with
    | some a, some b, some c, some d => some (((a * 16 + b) * 16 + c) * 16 + d)
    | _, _, _, _ => none
  | _ => none

/-- Go `utf16.DecodeRune`: the rune of a surrogate pair, U+FFFD when the two
are not a high and a low surrogate. -/
def utf16DecodeRune (r1 r2 : Nat) : Nat :=
  if 0xD800 ≤ r1 ∧ r1 < 0xDC00 ∧ 0xDC00 ≤ r2 ∧ r2 < 0xE000 then
    (r1 - 0xD800) * 1024 + (r2 - 0xDC00) + 0x10000
  else RuneError

/-- One step of the loop of `unquoteBytes`, at the byte `c` followed by
`rest`: the bytes the step appends to the result, and the number of bytes of
the literal it consumes.  An escape is replaced by what it stands for, a byte
that is not part of a valid UTF-8 encoding by U+FFFD.  `none` when the text is
not the inside of a JSON string. -/
def unquoteStep (c : Byte) (rest : List Byte) : Option (List Byte × Nat) :=
  if c = 92 then
    match rest with
    | [] => none
    | e :: _ =>
      if e = 34 ∨ e = 92 ∨ e = 47 ∨ e = 39 then some ([e], 2)
      else if e = 98 then some ([8], 2)
      else if e = 102 then some ([12], 2)
      else if e = 110 then some ([10], 2)
      else if e = 114 then some ([13], 2)
      else if e = 116 then some ([9], 2)
      else if e = 117 then
        match getu4 (c :: rest) with
        | none => none
        | some rr =>
          if 0xD800 ≤ rr ∧ rr < 0xE000 then
            let dec := match getu4 (rest.drop 5) with
              | some rr1 => utf16DecodeRune rr rr1
              | none => RuneError
            if dec ≠ RuneError then some (EncodeRune dec, 12)
            else some (EncodeRune RuneError, 6)
          else some (EncodeRune rr, 6)
      else none
  else if c = 34 ∨ c < 32 then none
  else if c < 0x80 then some ([c], 1)
  else some (EncodeRune (DecodeRune (c :: rest)).1, (DecodeRune (c :: rest)).2)

/-- The loop of `unquoteBytes` over the inside of a string literal.  `fuel`
bounds the number of steps; every step consumes a byte, so the length of the
text is enough. -/
def unquoteLoop : Nat → List Byte → Option (List Byte)
  | _, [] => some []
  | 0, _ :: _ => none
  | fuel + 1, c :: rest =>
    match unquoteStep c rest with
    | none => none
    | some (out, n) => (unquoteLoop fuel ((c :: rest).drop n)).map (out ++ ·)

/-- The function `unquoteBytes` of `decode.go`: the string a quoted JSON
string literal stands for. -/
def unquoteBytes (item : List Byte) : Option (List Byte) :=
  match item with
  | 34 :: rest =>
    match rest.getLast? with
    | some 34 => unquoteLoop rest.length rest.dropLast
    | _ => none
  | _ => none

/-! ## encoding/json: decoding into `logEntry` -/

/-- The struct `logEntry` of `humanlog.go`. -/
structure logEntry where
  Time : List Byte
  Level : List Byte
  Prefix : List Byte
  File : List Byte
  Line : List Byte
  Message : List Byte
  deriving DecidableEq, Repr

/-- The zero value of `logEntry`, what `var l logEntry` declares. -/
def logEntry.zero : logEntry :=
  { Time := [], Level := [], Prefix := [], File := [], Line := [], Message := [] }

/-- The fields of `logEntry`, in the order of the declaration. -/
inductive Field where
  | Time
  | Level
  | Prefix
  | File
  | Line
  | Message
  deriving DecidableEq, Repr

/-- The JSON name of a field, from its `json:"..."` tag. -/
def Field.name : Field → List Byte
  | .Time => bytes "time"
  | .Level => bytes "level"
  | .Prefix => bytes "prefix"
  | .File => bytes "file"
  | .Line => bytes "line"
  | .Message => bytes "message"

/-- All fields, in the order in which the decoder looks a key up. -/
def Field.all : List Field :=
  [.Time, .Level, .Prefix, .File, .Line, .Message]

/-- Assign a string to a field. -/
def logEntry.set (l : logEntry) (f : Field) (v : List Byte) : logEntry :=
  match f with
  | .Time => { l with Time := v }
  | .Level => { l with Level := v }
  | .Prefix => { l with Prefix := v }
  | .File => { l with File := v }
  | .Line => { l with Line := v }
  | .Message => { l with Message := v }

/-- The function `foldRune` of `fold.go`: the smallest rune of the case-fold
orbit of `r`.  It is given exactly for the two runes beyond ASCII whose orbit
holds an ASCII letter, U+017F (long s) and U+212A (Kelvin sign); any other
rune beyond ASCII is kept, which a comparison with the ASCII field names
cannot tell from its fold. -/
def foldRune (r : Nat) : Nat :=
  if r = 0x17F then 83 else if r = 0x212A then 75 else r

/-- The loop of `appendFoldedName`. -/
def foldNameLoop : Nat → List Byte → List Byte
  | _, [] => []
  | 0, _ :: _ => []
  | fuel + 1, c :: rest =>
    if c < 0x80 then
      (if 97 ≤ c ∧ c ≤ 122 then c - 32 else c) :: foldNameLoop fuel rest
    else
      let d := DecodeRune (c :: rest)
      EncodeRune (foldRune d.1) ++ foldNameLoop fuel ((c :: rest).drop d.2)

/-- The function `foldName` of `fold.go`: a key with letter case folded away. -/
def foldName (key : List Byte) : List Byte :=
  foldNameLoop key.length key

/-- The field a key of the JSON object names: the field whose JSON name is
the key, else the first field whose folded name is the folded key. -/
def lookupField (key : List Byte) : Option Field :=
  match Field.all.find? fun f => f.name = key with
  | some f => some f
  | none => Field.all.find? fun f => foldName f.name = foldName key

/-- The message of the `UnmarshalTypeError` for a JSON value of kind `value`
met where the string field `f` is expected. -/
def unmarshalTypeError (value : String) (f : Field) : GoError :=
  bytes "json: cannot unmarshal " ++ bytes value ++
    bytes " into Go struct field logEntry." ++ f.name ++ bytes " of type string"

/-- The state of `decodeState` that `Write` can observe: the struct being
filled, and the first error saved while the decoding went on. -/
structure decodeState where
  l : logEntry
  savedError : Option GoError
  deriving DecidableEq, Repr

/-- The method `decodeState.saveError`: only the first error is kept. -/
def decodeState.saveError (d : decodeState) (err : GoError) : decodeState :=
  match d.savedError with
  | none => { d with savedError := some err }
  | some _ => d

/-- The method `decodeState.value` for the value `item` of an object member
whose key names the field `f` (or no field): a string is assigned, `null`
leaves the field as it is, any other value is skipped and, when the key names
a field, reported as a type error.  `none` when `item` is not a value. -/
def decodeState.value (d : decodeState) (f : Option Field) (item : List Byte) :
    Option decodeState :=
  match item, f with
  | [], _ => none
  | _ :: _, none => some d
  | c :: rest, some f =>
    if c = 34 then
      match unquoteBytes (c :: rest) with
      | some s => some { d with l := d.l.set f s }
      | none => none
    else if c = 110 then some d
    else if c = 116 ∨ c = 102 then some (d.saveError (unmarshalTypeError "bool" f))
    else if c = 123 then some (d.saveError (unmarshalTypeError "object" f))
    else if c = 91 then some (d.saveError (unmarshalTypeError "array" f))
    else some (d.saveError (unmarshalTypeError "number" f))

/-- The loop of `decodeState.object` over the members of an object, from
behind its `{` or behind a `,`: read the key, the colon and the value, store
the value, go on after a `,` and stop at the `}`.  The text was accepted by the
scanner before; `none` stands for the panic of a decoder that finds it does
not have the shape the scanner accepted. -/
def objectLoop : Nat → decodeState → List Byte → Option decodeState
  | 0, _, _ => none
  | fuel + 1, d, data =>
    match data.dropWhile isSpace with
    | [] => none
    | c :: rest =>
      if c = 125 then some d
      else
        match readValue (c :: rest) with
        | .error _ => none
        | .ok keyItem =>
          match unquoteBytes keyItem with
          | none => none
          | some key =>
            match ((c :: rest).drop keyItem.length).dropWhile isSpace with
            | 58 :: afterColon =>
              let v := afterColon.dropWhile isSpace
              match readValue v with
              | .error _ => none
              | .ok item =>
                match d.value (lookupField key) item with
                | none => none
                | some d1 =>
                  match (v.drop item.length).dropWhile isSpace with
                  | 44 :: more => objectLoop fuel d1 more
                  | 125 :: _ => some d1
                  | _ => none
            | _ => none

/-- The message of the `UnmarshalTypeError` for a JSON value that is not an
object met where the struct itself is expected. -/
def unmarshalTopError (value : String) : GoError :=
  bytes "json: cannot unmarshal " ++ bytes value ++
    bytes " into Go value of type humanlog.logEntry"

/-- The method `decodeState.unmarshal` into a `*logEntry`: `data` is one JSON
value.  An object fills the struct member by member; `null` changes nothing;
any other value is a type error. -/
def unmarshal (data : List Byte) (l : logEntry) : Option decodeState :=
  let d : decodeState := { l := l, savedError := none }
  match data.dropWhile isSpace with
  | [] => none
  | c :: rest =>
    if c = 123 then objectLoop (rest.length + 1) d rest
    else if c = 91 then some (d.saveError (unmarshalTopError "array"))
    else if c = 34 then some (d.saveError (unmarshalTopError "string"))
    else if c = 110 then some d
    else if c = 116 ∨ c = 102 then some (d.saveError (unmarshalTopError "bool"))
    else some (d.saveError (unmarshalTopError "number"))

/-- Go `json.NewDecoder(bytes.NewReader(p)).Decode(&l)`: read the first JSON
value of `p` and store it into `l`; what follows that value in `p` is not
looked at.  The result is the struct after the call and the error returned,
or the panic of the decoder. -/
def Decode (p : List Byte) (l : logEntry) : Except Panic (logEntry × Option GoError) :=
  match readValue p with
  | .error err => .ok (l, some err)
  | .ok data =>
    match unmarshal data l with
    | none => .error .decoderOutOfSync
    | some d => .ok (d.l, d.savedError)

/-! ## fmt -/

/-- The method `fmt.padString` without the minus flag: `s` behind the spaces
that bring it to `wid` runes; no width, or a string that long, gives `s`. -/
def padString (wid : Option Nat) (s : List Byte) : List Byte :=
  match wid with
  | none => s
  | some w => List.replicate (w - RuneCountInString s) 32 ++ s

/-- What `doPrintf` appends for operands left over at the end of the format. -/
def extraArgs : List (List Byte) → List Byte
  | [] => []
  | a :: args =>
    bytes "%!(EXTRA string=" ++ a ++
      (args.flatMap fun b => bytes ", string=" ++ b) ++ bytes ")"

/-- The method `doPrintf` for string operands.  `verb` is `none` inside plain
text and `some wid` behind a `%`, with the width read so far.  The model
covers plain text, `%%` and the verbs `s` and `v` with an optional decimal
width; flags, precisions and argument indexes are outside it, and any other
verb is shown the way a verb that does not fit its operand is. -/
def doPrintf : List Byte → Option (Option Nat) → List (List Byte) → List Byte
  | [], none, args => extraArgs args
  | [], some _, args => bytes "%!(NOVERB)" ++ extraArgs args
  | c :: format, none, args =>
    if c = 37 then doPrintf format (some none) args
    else c :: doPrintf format none args
  | c :: format, some wid, args =>
    if isDigit c then doPrintf format (some (some (wid.getD 0 * 10 + (c - 48)))) args
    else if c = 37 then 37 :: doPrintf format none args
    else
      match args with
      | [] => bytes "%!" ++ (c :: bytes "(MISSING)") ++ doPrintf format none []
      | a :: args =>
        if c = 115 ∨ c = 118 then padString wid a ++ doPrintf format none args
        else
          bytes "%!" ++ (c :: bytes "(string=") ++ padString wid a ++ bytes ")" ++
            doPrintf format none args

/-- Go `fmt.Sprintf` for string operands. -/
def Sprintf (format : List Byte) (args : List (List Byte)) : List Byte :=
  doPrintf format none args

/-! ## io -/

/-- An `io.Writer`: one call of `Write` takes the state of the sink and a
buffer and gives the count and error it returns and the state afterwards. -/
structure Writer (σ : Type) where
  Write : σ → List Byte → (Int × Option GoError) × σ

/-- How a call ends: it returns `(n, err)`, or it panics.  `sink` is the state
of the downstream writer when the call ends. -/
inductive Outcome (σ : Type) where
  | returned (n : Int) (err : Option GoError) (sink : σ)
  | panicked (p : Panic) (sink : σ)

/-- A call that returns what one call of the writer returned. -/
def Outcome.ofWrite {σ : Type} (r : (Int × Option GoError) × σ) : Outcome σ :=
  .returned r.1.1 r.1.2 r.2

/-- Go `fmt.Fprintf(w, format, args...)`: the formatted text goes to `w` in
one call of `w.Write`, whose count and error are returned. -/
def Fprintf {σ : Type} (w : Writer σ) (sink : σ) (format : List Byte)
    (args : List (List Byte)) : Outcome σ :=
  .ofWrite (w.Write sink (Sprintf format args))

/-! ## humanlog -/

/-- The struct `HumanReadableLogger`.  An entry `none` of `toRemove` is a nil
pointer. -/
structure HumanReadableLogger (σ : Type) where
  output : Writer σ
  toRemove : List (Option Regexp)

/-- The function `New`: the error of `regexp.Compile` is dropped and the
pointer it returns is the one entry of `toRemove`. -/
def New {σ : Type} (output : Writer σ) : HumanReadableLogger σ :=
  { output := output
    toRemove := [Compile (bytes "\\\\x1b\\[[0-9]*m")] }

/-- The loop `for _, re = range h.toRemove { p = re.ReplaceAll(p, []byte{}) }`
of `Write`; a nil entry makes the call of its method panic. -/
def cleanup : List (Option Regexp) → List Byte → Except Panic (List Byte)
  | [], p => .ok p
  | none :: _, _ => .error .nilDereference
  | some re :: res, p => cleanup res (re.ReplaceAll p [])

/-- The index expression `xs[i]` on a slice of strings. -/
def index (xs : List (List Byte)) (i : Nat) : Except Panic (List Byte) :=
  match xs.get? i with
  | some x => .ok x
  | none => .error (.indexOutOfRange i xs.length)

/-- The method `(*HumanReadableLogger).Write`. -/
def HumanReadableLogger.Write {σ : Type} (h : HumanReadableLogger σ) (p : List Byte)
    (sink : σ) : Outcome σ :=
  match p with
  | [] => .panicked (.indexOutOfRange 0 0) sink
  | c :: _ =>
    if c = 123 then
      match cleanup h.toRemove p with
      | .error e => .panicked e sink
      | .ok p =>
        match Decode p logEntry.zero with
        | .error e => .panicked e sink
        | .ok (_, some err) =>
          Fprintf h.output sink (bytes "ERROR: Could not read log entry as JSON (%s): %s")
            [err, p]
        | .ok (l, none) =>
          -- It is a JSON object...
          match index (Split l.Time 46) 0 with
          | .error e => .panicked e sink
          | .ok date =>
            match index (Split l.Time 43) 1 with
            | .error e => .panicked e sink
            | .ok zone =>
              Fprintf h.output sink (bytes "%s+%s [%5s] %s:%s: %s\n")
                [date, zone, l.Level, l.File, l.Line, l.Message]
    else
      -- It is a single line
      .ofWrite (h.output.Write sink p)

/-- A sink that keeps every buffer written to it, accepts each in full and
returns no error. -/
def recorder : Writer (List (List Byte)) :=
  { Write := fun log b => ((b.length, none), log ++ [b]) }


/-- A writer that counts the calls of the writer `w` it passes them to. -/
def counting {σ : Type} (w : Writer σ) : Writer (σ × Nat) :=
  { Write := fun st b => ((w.Write st.1 b).1, ((w.Write st.1 b).2, st.2 + 1)) }

/-- The text of the diagnostic `Write` sends when the decoding fails with the
error `err`, `text` being the buffer it shows. -/
def diagnostic (err text : List Byte) : List Byte :=
  bytes "ERROR: Could not read log entry as JSON (" ++ err ++ bytes "): " ++ text

/-- The field `%5s` of the formatted line: the level behind the spaces that
bring it to five runes. -/
def levelField (level : List Byte) : List Byte :=
  List.replicate (5 - RuneCountInString level) 32 ++ level

/-- The formatted line for a date, a time zone and the fields of a record. -/
def formatted (date zone : List Byte) (l : logEntry) : List Byte :=
  date ++ bytes "+" ++ zone ++ bytes " [" ++ levelField l.Level ++ bytes "] " ++
    l.File ++ bytes ":" ++ l.Line ++ bytes ": " ++ l.Message ++ bytes "\n"

/-- The pattern `New` compiles, `\\x1b\[[0-9]*m`: the five bytes `\x1b[` as
they are spelled (a backslash, `x`, `1`, `b`, `[`), then digits, then `m`. -/
def escapePattern : Regexp :=
  { lit := bytes "\\x1b[", lo := 48, hi := 57, close := 109 }

/-- The record of the example in the specification. -/
def sampleBuffer : List Byte :=
  bytes ("\x7b\"time\":\"2023-05-01T10:20:30.123456+02:00\",\"level\":\"INFO\"," ++
    "\"prefix\":\"x\",\"file\":\"main.go\",\"line\":\"42\",\"message\":\"hello\"\x7d")

/-- The record the example decodes to. -/
def sampleRecord : logEntry :=
  { Time := bytes "2023-05-01T10:20:30.123456+02:00", Level := bytes "INFO",
    Prefix := bytes "x", File := bytes "main.go", Line := bytes "42",
    Message := bytes "hello" }

/-- A record with the seven-character level `WARNING`. -/
def warningBuffer : List Byte :=
  bytes ("\x7b\"time\":\"2023-05-01T10:20:30.5+02:00\",\"level\":\"WARNING\"," ++
    "\"prefix\":\"-\",\"file\":\"db.go\",\"line\":\"7\",\"message\":\"slow query\"\x7d")

/-- The record `warningBuffer` decodes to. -/
def warningRecord : logEntry :=
  { Time := bytes "2023-05-01T10:20:30.5+02:00", Level := bytes "WARNING",
    Prefix := bytes "-", File := bytes "db.go", Line := bytes "7",
    Message := bytes "slow query" }

/-- A record whose message holds the escape sequence ESC `[31m` as raw bytes. -/
def escBuffer : List Byte :=
  bytes "\x7b\"message\":\"\x1b[31mhello\"\x7d"

/-- A record whose message holds the same sequence in its escaped spelling,
the text `\x1b[31m`. -/
def spelledBuffer : List Byte :=
  bytes "\x7b\"time\":\"10:20:30.5+02:00\",\"message\":\"\\x1b[31mhello\"\x7d"

/-- A buffer that is no JSON behind its `{`. -/
def notJson : List Byte :=
  bytes "\x7bnot-json\x7d"

/-- The buffer `notJson` with the spelled sequence `\x1b[31m` behind its `{`. -/
def spelledNotJson : List Byte :=
  bytes "\x7b\\x1b[31mnot-json\x7d"

/-- A record whose time has no `+`. -/
def utcBuffer : List Byte :=
  bytes "\x7b\"time\":\"2023-05-01T10:20:30.5Z\",\"level\":\"INFO\",\"message\":\"hello\"\x7d"

/-- The record `utcBuffer` decodes to. -/
def utcRecord : logEntry :=
  { Time := bytes "2023-05-01T10:20:30.5Z", Level := bytes "INFO", Prefix := [],
    File := [], Line := [], Message := bytes "hello" }

/-- A sink that keeps every buffer handed to it, takes none of its bytes and
returns an error. -/
def brokenPipe : Writer (List (List Byte)) :=
  { Write := fun log b => ((0, some (bytes "write: broken pipe")), log ++ [b]) }

/-- A byte that stands for itself inside a JSON string literal: ASCII from the
space on, other than the quote and the backslash. -/
def plain (c : Byte) : Bool :=
  0x20 ≤ c ∧ c < 0x80 ∧ c ≠ 34 ∧ c ≠ 92

/-- The JSON string literal for a text of such bytes: the text between quotes. -/
def quoted (s : List Byte) : List Byte :=
  34 :: (s ++ [34])

/-- One member of a JSON object: the JSON name of a field, a colon, and a
string value. -/
def member (kv : Field × List Byte) : List Byte :=
  quoted kv.1.name ++ 58 :: quoted kv.2

/-- The text of an object behind a member: the members that follow, a comma
before each, and the closing brace. -/
def moreMembers : List (Field × List Byte) → List Byte
  | [] => [125]
  | kv :: kvs => 44 :: (member kv ++ moreMembers kvs)

/-- The text of an object behind its opening brace. -/
def membersText : List (Field × List Byte) → List Byte
  | [] => [125]
  | kv :: kvs => member kv ++ moreMembers kvs

/-- The JSON object with the string members `kvs`, in their order and without
white space; `objectText []` is the text of an empty object. -/
def objectText (kvs : List (Field × List Byte)) : List Byte :=
  123 :: membersText kvs

/-- What the loop of `decodeState.object` does behind the value of a member:
it goes on behind a comma and stops at the closing brace. -/
def afterValue (fuel : Nat) (d : decodeState) (X : List Byte) : Option decodeState :=
  match X.dropWhile isSpace with
  | 44 :: more => objectLoop fuel d more
  | 125 :: _ => some d
  | _ => none

/-- The record after the members `kvs` are stored into `l` one after the
other. -/
def recordOf (kvs : List (Field × List Byte)) (l : logEntry) : logEntry :=
  kvs.foldl (fun l kv => l.set kv.1 kv.2) l

/-- The scanner inside an object, behind a value. -/
def afterValueState : scanner :=
  ⟨.stateEndValue, false, [.parseObjectValue], none⟩

/-- The value of a field of a record. -/
def logEntry.get (l : logEntry) : Field → List Byte
  | .Time => l.Time
  | .Level => l.Level
  | .Prefix => l.Prefix
  | .File => l.File
  | .Line => l.Line
  | .Message => l.Message

/-- The scanner is inside a composite value: some object or array is open, and
the top-level value has not ended. -/
def scanner.inside (s : scanner) : Prop :=
  s.parseState ≠ [] ∧ s.step ≠ .stateEndTop

/-- After a closing bracket was scanned into the state `s1`: the space that
`readValue` invents either ends the top-level value, or leaves the scanner
inside a composite value. -/
def endsOrInside (s1 : scanner) : Prop :=
  (stateEndValue s1 32).2 = .scanEnd ∨
    ((stateEndValue s1 32).2 ≠ .scanEnd ∧ (stateEndValue s1 32).1.inside)

/-- What a step taken inside a composite value can give: never the end of the
top-level value before the byte; an error, or a closing bracket, or a state
that is still inside. -/
def goodStep (r : scanner × ScanOp) : Prop :=
  r.2 ≠ .scanEnd ∧
    (r.2 = .scanError ∨
      ((r.2 = .scanEndObject ∨ r.2 = .scanEndArray) ∧ endsOrInside r.1) ∨
      (r.2 ≠ .scanEndObject ∧ r.2 ≠ .scanEndArray ∧ r.1.inside))

/-- The portion of `s` before its first byte `sep`; all of `s` when it holds
no `sep`. -/
def beforeFirst (sep : Byte) : List Byte → List Byte
  | [] => []
  | c :: rest => if c = sep then [] else c :: beforeFirst sep rest

/-- The entire portion of `s` strictly after its first byte `sep`; empty when
`s` holds no `sep`. -/
def afterFirst (sep : Byte) : List Byte → List Byte
  | [] => []
  | c :: rest => if c = sep then rest else afterFirst sep rest

/-- A record whose time holds two `+`. -/
def twoPlusBuffer : List Byte :=
  bytes ("\x7b\"time\":\"2023-05-01T10:20:30.5+02:00+x\",\"level\":\"INFO\"," ++
    "\"file\":\"a.go\",\"line\":\"1\",\"message\":\"m\"\x7d")

/-- The record `twoPlusBuffer` decodes to. -/
def twoPlusRecord : logEntry :=
  { Time := bytes "2023-05-01T10:20:30.5+02:00+x", Level := bytes "INFO", Prefix := [],
    File := bytes "a.go", Line := bytes "1", Message := bytes "m" }

/-- A record whose time holds a `+` and no `.`. -/
def noDotBuffer : List Byte :=
  bytes ("\x7b\"time\":\"2023-05-01T10:20:30+02:00\",\"level\":\"INFO\"," ++
    "\"file\":\"a.go\",\"line\":\"1\",\"message\":\"m\"\x7d")

/-- The record `noDotBuffer` decodes to. -/
def noDotRecord : logEntry :=
  { Time := bytes "2023-05-01T10:20:30+02:00", Level := bytes "INFO", Prefix := [],
    File := bytes "a.go", Line := bytes "1", Message := bytes "m" }

/-- Some match of the pattern `re` begins somewhere in `s`. -/
def containsMatch (re : Regexp) (s : List Byte) : Bool :=
  s.tails.any fun t => (re.matchAt t).isSome

/-- A buffer in which one spelled sequence stands inside another:
`\x1b` + `\x1b[m` + `[m` behind the `{`. -/
def nestedSpelled : List Byte :=
  bytes "\x7b\\x1b\\x1b[m[m"

/-- The state of the sink when a call has ended. -/
def Outcome.sink {σ : Type} : Outcome σ → σ
  | .returned _ _ s => s
  | .panicked _ s => s

/-- What a call gives back to its caller: the count and error returned, or the
panic. -/
def Outcome.result {σ : Type} : Outcome σ → Except Panic (Int × Option GoError)
  | .returned n err _ => .ok (n, err)
  | .panicked p _ => .error p

/-- The text of the example record between its braces. -/
def sampleBody : List Byte :=
  sampleBuffer.tail.dropLast

/-- Bytes that are no JSON, to stand behind an object. -/
def garbage : List Byte :=
  bytes "\n\x7d] not json \x7b\"time\":0, \\x1b[0m"

/-- The text made of the pieces `a₀, a₁, …` with the texts `m₁, m₂, …` set
between them: `a₀ m₁ a₁ m₂ a₂ …`. -/
def weave : List (List Byte) → List (List Byte) → List Byte
  | [], _ => []
  | a :: _, [] => a
  | a :: as, m :: ms => a ++ m ++ weave as ms

/-- The beginning of a match that is not complete: a text that is not empty
and that the rest of the literal of `re`, or nothing, and the closing byte make
a match of `re`, as `\`, `\x1` or `\x1b[3` for the pattern of `New`. -/
def Regexp.partialMatch (re : Regexp) (s : List Byte) : Bool :=
  !s.isEmpty && re.lit.tails.any fun t => re.matchAt (s ++ t ++ [re.close]) == some []

/-- A buffer with an escaped quote and no spelled sequence, which is no JSON. -/
def escapedNotJson : List Byte :=
  bytes "\x7b\"message\":\"a\\\"b\" oops\x7d"

/-- A record whose message holds escaped quotes before two spelled sequences. -/
def escapedSpelled : List Byte :=
  bytes "\x7b\"message\":\"say \\\"hi\\\" \\x1b[31mred\\x1b[0m\"\x7d"

/-- A record that holds a time and nothing else. -/
def timeOnlyBuffer : List Byte :=
  bytes "\x7b\"time\":\"1.5+02:00\"\x7d"

/-- What a call of a method with a pointer receiver leaves behind: the outcome
of the call, with the sink, and the struct the receiver points to as it is
after the call. -/
structure Called (σ : Type) where
  outcome : Outcome σ
  receiver : HumanReadableLogger σ

/-- The call `h.Write(p)` as a step on the state of the program, which is the
sink and the struct `*h`.  The body of `Write` (lines 67 to 88) assigns to its
parameter `p` and to its local variables `d`, `err`, `re` and `l`, declared anew
in each call, and to nothing else: no statement assigns to `h.output` or to
`h.toRemove`, `ReplaceAll` returns a new slice, and the package variable
`LoggerConfig` is not used.  So the struct after the call is the struct before
it. -/
def HumanReadableLogger.call {σ : Type} (h : HumanReadableLogger σ) (p : List Byte)
    (sink : σ) : Called σ :=
  { outcome := h.Write p sink, receiver := h }

deriving instance DecidableEq for Except
deriving instance DecidableEq for Outcome

set_option maxRecDepth 100000

/-! ## Lemmas on the library models -/

theorem Split_nil (sep : Byte) : Split [] sep = [[]] := by
  rw [Split]

theorem Split_cons (c : Byte) (rest : List Byte) (sep : Byte) :
    Split (c :: rest) sep =
      if c = sep then [] :: Split rest sep
      else
        match Split rest sep with
        | [] => [[c]]
        | piece :: pieces => (c :: piece) :: pieces := by
  rw [Split]

theorem Split_ne_nil (s : List Byte) (sep : Byte) : Split s sep ≠ [] := by
  cases s with
  | nil => simp [Split_nil]
  | cons c rest =>
    rw [Split_cons]
    split
    · simp
    · split <;> simp

theorem Split_not_mem (s : List Byte) (sep : Byte) (h : sep ∉ s) : Split s sep = [s] := by
  induction s with
  | nil => simp [Split_nil]
  | cons c rest ih =>
    have hc : c ≠ sep := fun e => h (by simp [e])
    have hr : sep ∉ rest := fun e => h (by simp [e])
    rw [Split_cons]
    simp [hc, ih hr]

theorem Split_append_sep (a b : List Byte) (sep : Byte) (h : sep ∉ a) :
    Split (a ++ sep :: b) sep = a :: Split b sep := by
  induction a with
  | nil => simp [Split_cons]
  | cons c rest ih =>
    have hc : c ≠ sep := fun e => h (by simp [e])
    have hr : sep ∉ rest := fun e => h (by simp [e])
    rw [List.cons_append, Split_cons]
    simp [hc, ih hr]

theorem index_zero_Split (s : List Byte) (sep : Byte) :
    ∃ date, index (Split s sep) 0 = .ok date := by
  cases h : Split s sep with
  | nil => exact absurd h (Split_ne_nil s sep)
  | cons x xs => exact ⟨x, by simp [index]⟩

theorem index_one_Split_not_mem (s : List Byte) (sep : Byte) (h : sep ∉ s) :
    index (Split s sep) 1 = .error (.indexOutOfRange 1 1) := by
  simp [Split_not_mem s sep h, index]

theorem index_one_Split_mem (s : List Byte) (sep : Byte) (h : sep ∈ s) :
    ∃ zone, index (Split s sep) 1 = .ok zone := by
  induction s with
  | nil => simp at h
  | cons c rest ih =>
    by_cases hc : c = sep
    · cases hs : Split rest sep with
      | nil => exact absurd hs (Split_ne_nil rest sep)
      | cons y ys =>
        refine ⟨y, ?_⟩
        rw [Split_cons]
        simp [hc, hs, index]
    · have hr : sep ∈ rest := by
        rcases List.mem_cons.mp h with e | e
        · exact absurd e.symm hc
        · exact e
      obtain ⟨z, hz⟩ := ih hr
      cases hs : Split rest sep with
      | nil => exact absurd hs (Split_ne_nil rest sep)
      | cons y ys =>
        refine ⟨z, ?_⟩
        rw [hs] at hz
        rw [Split_cons]
        simp only [hc, if_false, hs]
        cases ys with
        | nil => simp [index] at hz
        | cons y2 ys2 => simpa [index] using hz

theorem Sprintf_line (a b : List Byte) (l : logEntry) :
    Sprintf (bytes "%s+%s [%5s] %s:%s: %s\n") [a, b, l.Level, l.File, l.Line, l.Message] =
      formatted a b l := by
  have h : Sprintf (bytes "%s+%s [%5s] %s:%s: %s\n")
      [a, b, l.Level, l.File, l.Line, l.Message] =
      a ++ (43 :: (b ++ (32 :: 91 :: (padString (some 5) l.Level ++
        (93 :: 32 :: (l.File ++ (58 :: (l.Line ++ (58 :: 32 :: (l.Message ++ [10])))))))))) :=
    rfl
  have h1 : bytes "+" = [43] := by decide
  have h2 : bytes " [" = [32, 91] := by decide
  have h3 : bytes "] " = [93, 32] := by decide
  have h4 : bytes ":" = [58] := by decide
  have h5 : bytes ": " = [58, 32] := by decide
  have h6 : bytes "\n" = [10] := by decide
  rw [h]
  simp [formatted, levelField, padString, h1, h2, h3, h4, h5, h6]

theorem Sprintf_diagnostic (err text : List Byte) :
    Sprintf (bytes "ERROR: Could not read log entry as JSON (%s): %s") [err, text] =
      diagnostic err text := by
  have h : Sprintf (bytes "ERROR: Could not read log entry as JSON (%s): %s") [err, text] =
      bytes "ERROR: Could not read log entry as JSON (" ++ (err ++ (41 :: 58 :: 32 ::
        (text ++ []))) := rfl
  have h1 : bytes "): " = [41, 58, 32] := by decide
  rw [h]
  simp [diagnostic, h1]

theorem formatted_eq (date zone : List Byte) (l : logEntry) :
    formatted date zone l =
      date ++ bytes "+" ++ zone ++ bytes " [" ++
        (List.replicate (5 - RuneCountInString l.Level) 32 ++ l.Level) ++ bytes "] " ++
        l.File ++ bytes ":" ++ l.Line ++ bytes ": " ++ l.Message ++ bytes "\n" := rfl

theorem DecodeRune_ascii (c : Byte) (rest : List Byte) (h : c < 0x80) :
    DecodeRune (c :: rest) = (c, 1) := by
  simp [DecodeRune, h]

theorem runeCountLoop_ascii (s : List Byte) (h : ∀ c ∈ s, c < 0x80) :
    ∀ fuel, s.length ≤ fuel → runeCountLoop fuel s = s.length := by
  induction s with
  | nil => intro fuel _; cases fuel <;> simp [runeCountLoop]
  | cons c rest ih =>
    intro fuel hf
    cases fuel with
    | zero => simp at hf
    | succ n =>
      have hc : c < 0x80 := h c (by simp)
      have hr : ∀ x ∈ rest, x < 0x80 := fun x hx => h x (by simp [hx])
      simp only [runeCountLoop, DecodeRune_ascii c rest hc, List.drop_succ_cons, List.drop_zero]
      rw [ih hr n (by simpa using hf)]
      simp [Nat.add_comm]

theorem RuneCountInString_ascii (s : List Byte) (h : ∀ c ∈ s, c < 0x80) :
    RuneCountInString s = s.length :=
  runeCountLoop_ascii s h s.length (Nat.le_refl _)

theorem Compile_pattern : Compile (bytes "\\\\x1b\\[[0-9]*m") = some escapePattern := by
  decide

theorem New_toRemove {σ : Type} (output : Writer σ) :
    (New output).toRemove = [some escapePattern] := by
  show [Compile (bytes "\\\\x1b\\[[0-9]*m")] = _
  rw [Compile_pattern]

theorem cleanup_New {σ : Type} (output : Writer σ) (p : List Byte) :
    cleanup (New output).toRemove p = .ok (escapePattern.ReplaceAll p []) := by
  rw [New_toRemove]
  rfl

theorem stripLit_length (pre s r : List Byte) (h : stripLit pre s = some r) :
    r.length + pre.length = s.length := by
  induction pre generalizing s with
  | nil => simp [stripLit] at h; simp [h]
  | cons a pre ih =>
    cases s with
    | nil => simp [stripLit] at h
    | cons c s =>
      simp only [stripLit] at h
      split at h
      · have := ih s h
        simp only [List.length_cons]
        omega
      · simp at h

theorem stripLit_append (pre s : List Byte) : stripLit pre (pre ++ s) = some s := by
  induction pre with
  | nil => simp [stripLit]
  | cons a pre ih => simp [stripLit, ih]

theorem matchAt_length (re : Regexp) (s r : List Byte) (h : re.matchAt s = some r) :
    r.length < s.length := by
  unfold Regexp.matchAt at h
  split at h
  · simp at h
  · rename_i r0 h0
    have h1 := stripLit_length re.lit s r0 h0
    split at h
    · simp at h
    · rename_i c r2 h2
      have h3 : (List.dropWhile (fun c => decide (re.lo ≤ c ∧ c ≤ re.hi)) r0).length ≤
          r0.length := (List.dropWhile_sublist _).length_le
      rw [h2] at h3
      simp only [List.length_cons] at h3
      split at h
      · simp only [Option.some.injEq] at h
        subst h
        omega
      · simp at h

theorem replaceLoop_fuel (re : Regexp) (repl : List Byte) :
    ∀ (n m : Nat) (s : List Byte), s.length ≤ n → s.length ≤ m →
      re.replaceLoop repl n s = re.replaceLoop repl m s := by
  intro n
  induction n with
  | zero =>
    intro m s hn _
    have hs : s = [] := List.length_eq_zero.mp (Nat.le_zero.mp hn)
    subst hs
    cases m <;> simp [Regexp.replaceLoop]
  | succ n ih =>
    intro m s hn hm
    cases s with
    | nil => cases m <;> simp [Regexp.replaceLoop]
    | cons c rest =>
      cases m with
      | zero => simp at hm
      | succ m =>
        simp only [List.length_cons] at hn hm
        simp only [Regexp.replaceLoop]
        cases hr : re.matchAt (c :: rest) with
        | none => simp only; rw [ih m rest (by omega) (by omega)]
        | some r =>
          have hl := matchAt_length re (c :: rest) r hr
          simp only [List.length_cons] at hl
          simp only
          rw [ih m r (by omega) (by omega)]

theorem ReplaceAll_nil (re : Regexp) (repl : List Byte) : re.ReplaceAll [] repl = [] := by
  simp [Regexp.ReplaceAll, Regexp.replaceLoop]

theorem ReplaceAll_cons_none (re : Regexp) (repl : List Byte) (c : Byte) (rest : List Byte)
    (h : re.matchAt (c :: rest) = none) :
    re.ReplaceAll (c :: rest) repl = c :: re.ReplaceAll rest repl := by
  simp [Regexp.ReplaceAll, Regexp.replaceLoop, h]

theorem ReplaceAll_cons_some (re : Regexp) (repl : List Byte) (c : Byte) (rest r : List Byte)
    (h : re.matchAt (c :: rest) = some r) :
    re.ReplaceAll (c :: rest) repl = repl ++ re.ReplaceAll r repl := by
  have hl := matchAt_length re (c :: rest) r h
  simp only [List.length_cons] at hl
  simp only [Regexp.ReplaceAll, Regexp.replaceLoop, h, List.length_cons]
  rw [replaceLoop_fuel re repl rest.length r.length r (by omega) (Nat.le_refl _)]

theorem escapePattern_lit : escapePattern.lit = [92, 120, 49, 98, 91] := by decide

theorem matchAt_escape_ne (c : Byte) (rest : List Byte) (h : c ≠ 92) :
    escapePattern.matchAt (c :: rest) = none := by
  have h' : ¬ (92 = c) := fun e => h e.symm
  simp [Regexp.matchAt, escapePattern_lit, stripLit, h']

theorem ReplaceAll_no_backslash (p : List Byte) (h : 92 ∉ p) :
    escapePattern.ReplaceAll p [] = p := by
  induction p with
  | nil => exact ReplaceAll_nil _ _
  | cons c rest ih =>
    have hc : c ≠ 92 := fun e => h (by simp [e])
    have hr : 92 ∉ rest := fun e => h (by simp [e])
    rw [ReplaceAll_cons_none _ _ c rest (matchAt_escape_ne c rest hc), ih hr]

theorem matchAt_escape_spelled (d v : List Byte) (hd : ∀ c ∈ d, 48 ≤ c ∧ c ≤ 57) :
    escapePattern.matchAt ([92, 120, 49, 98, 91] ++ d ++ 109 :: v) = some v := by
  have hdrop : List.dropWhile (fun c => decide (escapePattern.lo ≤ c ∧ c ≤ escapePattern.hi))
      (d ++ 109 :: v) = 109 :: v := by
    induction d with
    | nil => simp [List.dropWhile, escapePattern]
    | cons c d ih =>
      have hc := hd c (by simp)
      have hr : ∀ x ∈ d, 48 ≤ x ∧ x ≤ 57 := fun x hx => hd x (by simp [hx])
      have : decide (escapePattern.lo ≤ c ∧ c ≤ escapePattern.hi) = true := by
        simpa [escapePattern] using hc
      rw [List.cons_append, List.dropWhile_cons, if_pos this]
      exact ih hr
  unfold Regexp.matchAt
  rw [← escapePattern_lit, List.append_assoc, stripLit_append]
  simp only [hdrop]
  simp [escapePattern]

/-! ## The branches of `Write` -/

theorem Write_plain {σ : Type} (h : HumanReadableLogger σ) (c : Byte) (rest : List Byte)
    (sink : σ) (hc : c ≠ 123) :
    h.Write (c :: rest) sink = .ofWrite (h.output.Write sink (c :: rest)) := by
  simp [HumanReadableLogger.Write, hc]

theorem Write_panic_decoder {σ : Type} (h : HumanReadableLogger σ) (rest q : List Byte)
    (sink : σ) (e : Panic) (hc : cleanup h.toRemove (123 :: rest) = .ok q)
    (hd : Decode q logEntry.zero = .error e) :
    h.Write (123 :: rest) sink = .panicked e sink := by
  simp [HumanReadableLogger.Write, hc, hd]

theorem Write_diagnostic {σ : Type} (h : HumanReadableLogger σ) (rest q : List Byte)
    (sink : σ) (l : logEntry) (err : GoError)
    (hc : cleanup h.toRemove (123 :: rest) = .ok q)
    (hd : Decode q logEntry.zero = .ok (l, some err)) :
    h.Write (123 :: rest) sink = .ofWrite (h.output.Write sink (diagnostic err q)) := by
  simp [HumanReadableLogger.Write, hc, hd, Fprintf, Sprintf_diagnostic]

theorem Write_formatted {σ : Type} (h : HumanReadableLogger σ) (rest q : List Byte)
    (sink : σ) (l : logEntry) (date zone : List Byte)
    (hc : cleanup h.toRemove (123 :: rest) = .ok q)
    (hd : Decode q logEntry.zero = .ok (l, none))
    (hdate : index (Split l.Time 46) 0 = .ok date)
    (hzone : index (Split l.Time 43) 1 = .ok zone) :
    h.Write (123 :: rest) sink = .ofWrite (h.output.Write sink (formatted date zone l)) := by
  simp [HumanReadableLogger.Write, hc, hd, hdate, hzone, Fprintf, Sprintf_line]

theorem Write_no_zone {σ : Type} (h : HumanReadableLogger σ) (rest q : List Byte)
    (sink : σ) (l : logEntry)
    (hc : cleanup h.toRemove (123 :: rest) = .ok q)
    (hd : Decode q logEntry.zero = .ok (l, none))
    (hplus : 43 ∉ l.Time) :
    h.Write (123 :: rest) sink = .panicked (.indexOutOfRange 1 1) sink := by
  obtain ⟨date, hdate⟩ := index_zero_Split l.Time 46
  simp [HumanReadableLogger.Write, hc, hd, hdate, index_one_Split_not_mem l.Time 43 hplus]

/-! ## Decoding an object of string members -/

theorem plain_iff (c : Byte) : plain c = true ↔ 0x20 ≤ c ∧ c < 0x80 ∧ c ≠ 34 ∧ c ≠ 92 := by
  simp [plain]

theorem stepByte_plain (s : scanner) (c : Byte) (hs : s.step = .stateInString)
    (hc : plain c = true) : s.stepByte c = (s, .scanContinue) := by
  obtain ⟨h1, h2, h3, h4⟩ := (plain_iff c).mp hc
  have h5 : ¬ c < 32 := Nat.not_lt.mpr h1
  simp [scanner.stepByte, hs, h3, h4, h5]

theorem stepByte_quote_close (s : scanner) (hs : s.step = .stateInString) :
    s.stepByte 34 = ({ s with step := .stateEndValue }, .scanContinue) := by
  simp [scanner.stepByte, hs]

theorem readValueLoop_plain (buf : List Byte) (s : scanner) (t rest r : List Byte)
    (hs : s.step = .stateInString) (ht : ∀ c ∈ t, plain c = true)
    (hr : readValueLoop buf s rest = .ok r) :
    readValueLoop buf s (t ++ rest) = .ok (t ++ r) := by
  induction t with
  | nil => simpa using hr
  | cons c t ih =>
    have hc := ht c (by simp)
    have ht' : ∀ x ∈ t, plain x = true := fun x hx => ht x (by simp [hx])
    rw [List.cons_append, readValueLoop, stepByte_plain s c hs hc]
    simp [ih ht', Except.map]

theorem readValueLoop_quoted (buf : List Byte) (s : scanner) (t rest r : List Byte)
    (hs : s.stepByte 34 = ({ s with step := .stateInString }, .scanBeginLiteral))
    (ht : ∀ c ∈ t, plain c = true)
    (hr : readValueLoop buf { s with step := .stateEndValue } rest = .ok r) :
    readValueLoop buf s (34 :: (t ++ 34 :: rest)) = .ok (34 :: (t ++ 34 :: r)) := by
  have hin : readValueLoop buf { s with step := .stateInString } (34 :: rest) =
      .ok (34 :: r) := by
    rw [readValueLoop, stepByte_quote_close _ rfl]
    simp [hr, Except.map]
  rw [readValueLoop, hs]
  simp [readValueLoop_plain buf _ t (34 :: rest) (34 :: r) rfl ht hin, Except.map]

theorem readValueLoop_top_end (buf : List Byte) (e : Bool) (err : Option (List Byte))
    (rest : List Byte) :
    readValueLoop buf ⟨.stateEndValue, e, [], err⟩ rest = .ok [] := by
  cases rest with
  | nil => simp [readValueLoop, scanner.stepByte, stateEndValue, stateEndTop, isSpace]
  | cons c rest =>
    rw [readValueLoop]
    by_cases hc : isSpace c = true
    · simp [scanner.stepByte, stateEndValue, stateEndTop, hc]
    · simp [scanner.stepByte, stateEndValue, stateEndTop, hc, scanner.error]

theorem readValue_quoted (t rest : List Byte) (ht : ∀ c ∈ t, plain c = true) :
    readValue (34 :: (t ++ 34 :: rest)) = .ok (34 :: (t ++ [34])) := by
  have h := readValueLoop_quoted (34 :: (t ++ 34 :: rest)) scanner.reset t rest []
    (by simp [scanner.stepByte, scanner.reset, stateBeginValue, isSpace]) ht
    (readValueLoop_top_end _ _ _ _)
  exact h

theorem unquoteLoop_nil (fuel : Nat) : unquoteLoop fuel [] = some [] := by
  cases fuel <;> rfl

theorem unquoteLoop_cons_plain (fuel : Nat) (c : Byte) (rest : List Byte)
    (hc : plain c = true) :
    unquoteLoop (fuel + 1) (c :: rest) = (unquoteLoop fuel rest).map (c :: ·) := by
  obtain ⟨h1, h2, h3, h4⟩ := (plain_iff c).mp hc
  have h5 : ¬ c < 32 := Nat.not_lt.mpr h1
  have hstep : unquoteStep c rest = some ([c], 1) := by
    simp [unquoteStep, h4, h3, h5, h2]
  rw [unquoteLoop, hstep]
  rfl

theorem unquoteLoop_plain (t : List Byte) (ht : ∀ c ∈ t, plain c = true) :
    ∀ fuel, t.length ≤ fuel → unquoteLoop fuel t = some t := by
  induction t with
  | nil => intro fuel _; exact unquoteLoop_nil fuel
  | cons c t ih =>
    intro fuel hf
    cases fuel with
    | zero => simp at hf
    | succ n =>
      have ht' : ∀ x ∈ t, plain x = true := fun x hx => ht x (by simp [hx])
      have hn : t.length ≤ n := by simpa using hf
      rw [unquoteLoop_cons_plain n c t (ht c (by simp)), ih ht' n hn]
      rfl

theorem unquoteBytes_quoted (t : List Byte) (ht : ∀ c ∈ t, plain c = true) :
    unquoteBytes (34 :: (t ++ [34])) = some t := by
  simp [unquoteBytes, unquoteLoop_plain t ht (t.length + 1) (Nat.le_succ _)]

theorem Field_name_plain (f : Field) : ∀ c ∈ f.name, plain c = true := by
  cases f <;> decide

theorem lookupField_name (f : Field) : lookupField f.name = some f := by
  cases f <;> decide

theorem drop_quoted (t rest : List Byte) :
    List.drop (34 :: (t ++ [34])).length (34 :: (t ++ 34 :: rest)) = rest := by
  have : (34 :: (t ++ 34 :: rest) : List Byte) = (34 :: (t ++ [34])) ++ rest := by simp
  rw [this, List.drop_left]

theorem objectLoop_member (fuel : Nat) (d : decodeState) (f : Field) (v X : List Byte)
    (hv : ∀ c ∈ v, plain c = true) :
    objectLoop (fuel + 1) d (34 :: (f.name ++ 34 :: 58 :: 34 :: (v ++ 34 :: X))) =
      afterValue fuel { d with l := d.l.set f v } X := by
  rw [objectLoop]
  have hs : isSpace 34 = false := by decide
  have hs2 : isSpace 58 = false := by decide
  simp only [List.dropWhile_cons, hs, hs2, Bool.false_eq_true, if_false]
  have h125 : ¬ ((34 : Byte) = 125) := by decide
  simp only [h125, if_false]
  rw [readValue_quoted f.name _ (Field_name_plain f)]
  simp only [unquoteBytes_quoted f.name (Field_name_plain f), drop_quoted,
    List.dropWhile_cons, hs, hs2, Bool.false_eq_true, if_false]
  rw [readValue_quoted v X hv]
  simp only [lookupField_name, decodeState.value, unquoteBytes_quoted v hv, drop_quoted,
    if_true]
  rfl

theorem member_append (kv : Field × List Byte) (X : List Byte) :
    member kv ++ X = 34 :: (kv.1.name ++ 34 :: 58 :: 34 :: (kv.2 ++ 34 :: X)) := by
  simp [member, quoted]

theorem recordOf_cons (kv : Field × List Byte) (kvs : List (Field × List Byte))
    (l : logEntry) : recordOf (kv :: kvs) l = recordOf kvs (l.set kv.1 kv.2) := rfl

theorem afterValue_moreMembers (kvs : List (Field × List Byte))
    (hv : ∀ kv ∈ kvs, ∀ c ∈ kv.2, plain c = true) :
    ∀ (fuel : Nat) (l : logEntry), kvs.length ≤ fuel →
      afterValue fuel ⟨l, none⟩ (moreMembers kvs) = some ⟨recordOf kvs l, none⟩ := by
  induction kvs with
  | nil =>
    intro fuel l _
    have hs : isSpace 125 = false := by decide
    simp [afterValue, moreMembers, List.dropWhile_cons, hs, recordOf]
  | cons kv kvs ih =>
    intro fuel l hf
    cases fuel with
    | zero => simp at hf
    | succ n =>
      have hs : isSpace 44 = false := by decide
      have hkv := hv kv (by simp)
      have hrest : ∀ x ∈ kvs, ∀ c ∈ x.2, plain c = true := fun x hx => hv x (by simp [hx])
      have hn : kvs.length ≤ n := by simpa using hf
      have h1 : afterValue (n + 1) ⟨l, none⟩ (moreMembers (kv :: kvs)) =
          objectLoop (n + 1) ⟨l, none⟩ (member kv ++ moreMembers kvs) := by
        simp [afterValue, moreMembers, List.dropWhile_cons, hs]
      rw [h1, member_append, objectLoop_member n _ kv.1 kv.2 _ hkv, recordOf_cons]
      exact ih hrest n _ hn

theorem length_moreMembers (kvs : List (Field × List Byte)) :
    kvs.length < (moreMembers kvs).length := by
  induction kvs with
  | nil => simp [moreMembers]
  | cons kv kvs ih =>
    simp only [moreMembers, List.length_cons, List.length_append]
    omega

theorem unmarshal_objectText (kvs : List (Field × List Byte)) (l : logEntry)
    (hv : ∀ kv ∈ kvs, ∀ c ∈ kv.2, plain c = true) :
    unmarshal (objectText kvs) l = some ⟨recordOf kvs l, none⟩ := by
  have hs : isSpace 123 = false := by decide
  have hs2 : isSpace 125 = false := by decide
  cases kvs with
  | nil =>
    simp [unmarshal, objectText, membersText, List.dropWhile_cons, hs, hs2, objectLoop,
      recordOf]
  | cons kv kvs =>
    have hkv := hv kv (by simp)
    have hrest : ∀ x ∈ kvs, ∀ c ∈ x.2, plain c = true := fun x hx => hv x (by simp [hx])
    have h1 : unmarshal (objectText (kv :: kvs)) l =
        objectLoop ((member kv ++ moreMembers kvs).length + 1) ⟨l, none⟩
          (member kv ++ moreMembers kvs) := by
      simp [unmarshal, objectText, membersText, List.dropWhile_cons, hs]
    rw [h1, member_append, objectLoop_member _ _ kv.1 kv.2 _ hkv, recordOf_cons]
    apply afterValue_moreMembers kvs hrest
    have := length_moreMembers kvs
    simp only [List.length_cons, List.length_append]
    omega

theorem readValueLoop_member (buf : List Byte) (step : StepFn)
    (hstep : step = .stateBeginString ∨ step = .stateBeginStringOrEmpty)
    (kv : Field × List Byte) (rest r : List Byte) (hv : ∀ c ∈ kv.2, plain c = true)
    (hr : readValueLoop buf afterValueState rest = .ok r) :
    readValueLoop buf ⟨step, false, [.parseObjectKey], none⟩ (member kv ++ rest) =
      .ok (member kv ++ r) := by
  rw [member_append, member_append]
  have hs : isSpace 34 = false := by decide
  have hs2 : isSpace 58 = false := by decide
  apply readValueLoop_quoted _ _ _ _ _ _ (Field_name_plain kv.1)
  · rw [readValueLoop]
    have h58 : (⟨.stateEndValue, false, [.parseObjectKey], none⟩ : scanner).stepByte 58 =
        (⟨.stateBeginValue, false, [.parseObjectValue], none⟩, .scanObjectKey) := by
      simp [scanner.stepByte, stateEndValue, hs2]
    simp only [h58]
    have hq := readValueLoop_quoted buf ⟨.stateBeginValue, false, [.parseObjectValue], none⟩
      kv.2 rest r (by simp [scanner.stepByte, stateBeginValue, hs]) hv hr
    simp [hq, Except.map]
  · rcases hstep with h | h <;> subst h <;>
      simp [scanner.stepByte, stateBeginString, stateBeginStringOrEmpty, hs]

theorem readValueLoop_close (buf tail : List Byte) :
    readValueLoop buf afterValueState (125 :: tail) = .ok [125] := by
  have hs : isSpace 125 = false := by decide
  have hs2 : isSpace 32 = true := by decide
  rw [readValueLoop]
  simp [afterValueState, scanner.stepByte, stateEndValue, hs, hs2, scanner.popParseState,
    stateEndTop]

theorem readValueLoop_moreMembers (buf tail : List Byte) (kvs : List (Field × List Byte))
    (hv : ∀ kv ∈ kvs, ∀ c ∈ kv.2, plain c = true) :
    readValueLoop buf afterValueState (moreMembers kvs ++ tail) = .ok (moreMembers kvs) := by
  induction kvs with
  | nil => exact readValueLoop_close buf tail
  | cons kv kvs ih =>
    have hkv := hv kv (by simp)
    have hrest : ∀ x ∈ kvs, ∀ c ∈ x.2, plain c = true := fun x hx => hv x (by simp [hx])
    have hs : isSpace 44 = false := by decide
    have h44 : afterValueState.stepByte 44 =
        (⟨.stateBeginString, false, [.parseObjectKey], none⟩, .scanObjectValue) := by
      simp [afterValueState, scanner.stepByte, stateEndValue, hs]
    have hm := readValueLoop_member buf .stateBeginString (Or.inl rfl) kv
      (moreMembers kvs ++ tail) (moreMembers kvs) hkv (ih hrest)
    simp only [moreMembers, List.cons_append, List.append_assoc]
    rw [readValueLoop]
    simp only [h44]
    rw [hm]
    rfl

theorem readValue_objectText (kvs : List (Field × List Byte)) (tail : List Byte)
    (hv : ∀ kv ∈ kvs, ∀ c ∈ kv.2, plain c = true) :
    readValue (objectText kvs ++ tail) = .ok (objectText kvs) := by
  have hs : isSpace 123 = false := by decide
  have h123 : scanner.reset.stepByte 123 =
      (⟨.stateBeginStringOrEmpty, false, [.parseObjectKey], none⟩, .scanBeginObject) := by
    simp [scanner.reset, scanner.stepByte, stateBeginValue, hs, scanner.pushParseState,
      maxNestingDepth]
  rw [readValue]
  simp only [objectText, List.cons_append]
  rw [readValueLoop]
  simp only [h123]
  cases kvs with
  | nil =>
    have hs5 : isSpace 125 = false := by decide
    have hs2 : isSpace 32 = true := by decide
    simp only [membersText, List.cons_append, List.nil_append]
    rw [readValueLoop]
    simp [scanner.stepByte, stateBeginStringOrEmpty, stateEndValue, hs5, hs2,
      scanner.popParseState, stateEndTop, Except.map]
  | cons kv kvs =>
    have hkv := hv kv (by simp)
    have hrest : ∀ x ∈ kvs, ∀ c ∈ x.2, plain c = true := fun x hx => hv x (by simp [hx])
    have hm := readValueLoop_member (123 :: (membersText (kv :: kvs) ++ tail))
      .stateBeginStringOrEmpty (Or.inr rfl) kv
      (moreMembers kvs ++ tail) (moreMembers kvs) hkv
      (readValueLoop_moreMembers _ tail kvs hrest)
    simp only [membersText, List.append_assoc] at hm ⊢
    rw [hm]
    rfl

theorem Decode_objectText (kvs : List (Field × List Byte)) (tail : List Byte) (l : logEntry)
    (hv : ∀ kv ∈ kvs, ∀ c ∈ kv.2, plain c = true) :
    Decode (objectText kvs ++ tail) l = .ok (recordOf kvs l, none) := by
  simp [Decode, readValue_objectText kvs tail hv, unmarshal_objectText kvs l hv]

theorem get_set_ne (l : logEntry) (f g : Field) (v : List Byte) (h : g ≠ f) :
    (l.set g v).get f = l.get f := by
  cases f <;> cases g <;> first | rfl | exact absurd rfl h

theorem recordOf_get_lacking (kvs : List (Field × List Byte)) (f : Field) :
    ∀ l : logEntry, (∀ kv ∈ kvs, kv.1 ≠ f) → (recordOf kvs l).get f = l.get f := by
  induction kvs with
  | nil => intro l _; rfl
  | cons kv kvs ih =>
    intro l h
    rw [recordOf_cons, ih _ (fun x hx => h x (by simp [hx])),
      get_set_ne l f kv.1 kv.2 (h kv (by simp))]

theorem not_mem_of_plain (t : List Byte) (ht : ∀ c ∈ t, plain c = true) : 92 ∉ t := by
  intro h
  have := ht 92 h
  revert this
  decide

theorem member_no_backslash (kv : Field × List Byte) (hv : ∀ c ∈ kv.2, plain c = true) :
    92 ∉ member kv := by
  have h1 := not_mem_of_plain kv.1.name (Field_name_plain kv.1)
  have h2 := not_mem_of_plain kv.2 hv
  simp [member, quoted, h1, h2]

theorem moreMembers_no_backslash (kvs : List (Field × List Byte))
    (hv : ∀ kv ∈ kvs, ∀ c ∈ kv.2, plain c = true) : 92 ∉ moreMembers kvs := by
  induction kvs with
  | nil => simp [moreMembers]
  | cons kv kvs ih =>
    have h1 := member_no_backslash kv (hv kv (by simp))
    have h2 := ih (fun x hx => hv x (by simp [hx]))
    simp [moreMembers, h1, h2]

theorem objectText_no_backslash (kvs : List (Field × List Byte))
    (hv : ∀ kv ∈ kvs, ∀ c ∈ kv.2, plain c = true) : 92 ∉ objectText kvs := by
  cases kvs with
  | nil => simp [objectText, membersText]
  | cons kv kvs =>
    have h1 := member_no_backslash kv (hv kv (by simp))
    have h2 := moreMembers_no_backslash kvs (fun x hx => hv x (by simp [hx]))
    simp [objectText, membersText, h1, h2]

theorem cleanup_objectText {σ : Type} (output : Writer σ) (kvs : List (Field × List Byte))
    (hv : ∀ kv ∈ kvs, ∀ c ∈ kv.2, plain c = true) :
    cleanup (New output).toRemove (123 :: membersText kvs) = .ok (objectText kvs) := by
  rw [cleanup_New]
  exact congrArg _ (ReplaceAll_no_backslash (objectText kvs) (objectText_no_backslash kvs hv))

/-! ## The claims -/

/-- C1: for every non-empty buffer whose first byte is not `{`, `Write` hands
exactly that buffer, unchanged, to the downstream writer in one call and
returns the count and the error that call returned. -/
theorem Write_plain_buffer_passes_through {σ : Type} (h : HumanReadableLogger σ)
    (c : Byte) (rest : List Byte) (sink : σ) (hc : c ≠ 123) :
    h.Write (c :: rest) sink =
      .returned (h.output.Write sink (c :: rest)).1.1 (h.output.Write sink (c :: rest)).1.2
        (h.output.Write sink (c :: rest)).2 :=
  Write_plain h c rest sink hc

/-- The line `GET /\n`, written to a logger made by `New`, is passed through. -/
theorem Write_plain_buffer_passes_through_witness :
    (71 : Byte) ≠ 123 ∧
    (New recorder).Write (71 :: bytes "ET /\n") [] =
      .returned (recorder.Write [] (71 :: bytes "ET /\n")).1.1
        (recorder.Write [] (71 :: bytes "ET /\n")).1.2
        (recorder.Write [] (71 :: bytes "ET /\n")).2 :=
  ⟨by decide, Write_plain_buffer_passes_through (New recorder) 71 (bytes "ET /\n") []
    (by decide)⟩

/-- C2: for every buffer beginning with `{` whose cleaned text decodes to a
record `l` with `l.Time = S ++ "." ++ F ++ "+" ++ Z`, where `S` has neither `.`
nor `+` and `F` and `Z` have no `+`, the text `Write` sends downstream is
`S + "+" + Z + " [" + level padded on the left to five runes + "] " + file +
":" + line + ": " + message + "\n"`; `l.Prefix` and `F` are not part of it. -/
theorem Write_formats_record {σ : Type} (h : HumanReadableLogger σ) (rest q : List Byte)
    (sink : σ) (l : logEntry) (S F Z : List Byte)
    (hc : cleanup h.toRemove (123 :: rest) = .ok q)
    (hd : Decode q logEntry.zero = .ok (l, none))
    (ht : l.Time = S ++ bytes "." ++ F ++ bytes "+" ++ Z)
    (hS : 46 ∉ S ∧ 43 ∉ S) (hF : 43 ∉ F) (hZ : 43 ∉ Z) :
    h.Write (123 :: rest) sink =
      .ofWrite (h.output.Write sink
        (S ++ bytes "+" ++ Z ++ bytes " [" ++
          (List.replicate (5 - RuneCountInString l.Level) 32 ++ l.Level) ++ bytes "] " ++
          l.File ++ bytes ":" ++ l.Line ++ bytes ": " ++ l.Message ++ bytes "\n")) := by
  have h1 : bytes "." = [46] := by decide
  have h2 : bytes "+" = [43] := by decide
  have ht1 : l.Time = S ++ 46 :: (F ++ 43 :: Z) := by simp [ht, h1, h2]
  have ht2 : l.Time = (S ++ 46 :: F) ++ 43 :: Z := by simp [ht, h1, h2]
  have hdate : index (Split l.Time 46) 0 = .ok S := by
    rw [ht1, Split_append_sep S _ 46 hS.1]
    simp [index]
  have hzone : index (Split l.Time 43) 1 = .ok Z := by
    have hne : 43 ∉ S ++ 46 :: F := by simp [hS.2, hF]
    rw [ht2, Split_append_sep _ Z 43 hne, Split_not_mem Z 43 hZ]
    simp [index]
  rw [Write_formatted h rest q sink l S Z hc hd hdate hzone, formatted_eq]

/-- The example record satisfies the hypotheses of `Write_formats_record`, and
the line written for it is the one the theorem gives. -/
theorem Write_formats_record_witness :
    Decode sampleBuffer logEntry.zero = .ok (sampleRecord, none) ∧
    (New recorder).Write sampleBuffer [] =
      .ofWrite (recorder.Write []
        (bytes "2023-05-01T10:20:30+02:00 [ INFO] main.go:42: hello\n")) :=
  ⟨by decide,
   Write_formats_record (New recorder) sampleBuffer.tail sampleBuffer [] sampleRecord
    (bytes "2023-05-01T10:20:30") (bytes "123456") (bytes "02:00")
    (by decide) (by decide) (by decide) (by decide) (by decide) (by decide)⟩

/-- Counterexample to C3 as stated: for the example record the line written
downstream is not `2023-05-01T10:20:30+02:00 [INFO ] main.go:42: hello\n`. -/
theorem Write_sample_not_left_aligned :
    (New recorder).Write sampleBuffer [] ≠
      .ofWrite (recorder.Write []
        (bytes "2023-05-01T10:20:30+02:00 [INFO ] main.go:42: hello\n")) := by
  decide

/-- C3, amended: for the example record the line `Write` sends downstream is
exactly `2023-05-01T10:20:30+02:00 [ INFO] main.go:42: hello\n`: `%5s` puts the
padding space in front of the four-character level `INFO`. -/
theorem Write_sample_line {σ : Type} (output : Writer σ) (sink : σ) :
    (New output).Write sampleBuffer sink =
      .ofWrite (output.Write sink
        (bytes "2023-05-01T10:20:30+02:00 [ INFO] main.go:42: hello\n")) := by
  have hw := Write_formatted (New output) sampleBuffer.tail sampleBuffer sink sampleRecord
    (bytes "2023-05-01T10:20:30") (bytes "02:00")
    (by rw [cleanup_New]; decide) (by decide) (by decide) (by decide)
  have hf : formatted (bytes "2023-05-01T10:20:30") (bytes "02:00") sampleRecord =
      bytes "2023-05-01T10:20:30+02:00 [ INFO] main.go:42: hello\n" := by decide
  rw [hf] at hw
  exact hw

/-- C4: in the formatted line the level stands between `[` and `]`
right-aligned in at least five characters (runes): a level of fewer than five
is preceded by exactly five minus its length spaces, a level of five or more
is written in full with no padding and nothing cut off.  For a level of ASCII
bytes the number of runes is the number of bytes. -/
theorem Write_level_right_aligned {σ : Type} (h : HumanReadableLogger σ)
    (rest q : List Byte) (sink : σ) (l : logEntry) (date zone : List Byte)
    (hc : cleanup h.toRemove (123 :: rest) = .ok q)
    (hd : Decode q logEntry.zero = .ok (l, none))
    (hdate : index (Split l.Time 46) 0 = .ok date)
    (hzone : index (Split l.Time 43) 1 = .ok zone) :
    ∃ field : List Byte,
      h.Write (123 :: rest) sink =
        .ofWrite (h.output.Write sink
          (date ++ bytes "+" ++ zone ++ bytes " [" ++ field ++ bytes "] " ++
            l.File ++ bytes ":" ++ l.Line ++ bytes ": " ++ l.Message ++ bytes "\n")) ∧
      (RuneCountInString l.Level < 5 →
        field = List.replicate (5 - RuneCountInString l.Level) 32 ++ l.Level) ∧
      (5 ≤ RuneCountInString l.Level → field = l.Level) ∧
      ((∀ c ∈ l.Level, c < 0x80) → RuneCountInString l.Level = l.Level.length) := by
  refine ⟨List.replicate (5 - RuneCountInString l.Level) 32 ++ l.Level, ?_, ?_, ?_, ?_⟩
  · rw [Write_formatted h rest q sink l date zone hc hd hdate hzone, formatted_eq]
  · intro _; rfl
  · intro h5
    have : 5 - RuneCountInString l.Level = 0 := by omega
    simp [this]
  · exact RuneCountInString_ascii l.Level

/-- The record with the level `WARNING` satisfies the hypotheses of
`Write_level_right_aligned`; its level is written in full. -/
theorem Write_level_right_aligned_witness :
    Decode warningBuffer logEntry.zero = .ok (warningRecord, none) ∧
    ∃ field : List Byte,
      (New recorder).Write (123 :: warningBuffer.tail) [] =
        .ofWrite ((New recorder).output.Write []
          (bytes "2023-05-01T10:20:30" ++ bytes "+" ++ bytes "02:00" ++ bytes " [" ++ field ++
            bytes "] " ++ warningRecord.File ++ bytes ":" ++ warningRecord.Line ++ bytes ": " ++
            warningRecord.Message ++ bytes "\n")) ∧
      (RuneCountInString warningRecord.Level < 5 →
        field = List.replicate (5 - RuneCountInString warningRecord.Level) 32 ++
          warningRecord.Level) ∧
      (5 ≤ RuneCountInString warningRecord.Level → field = warningRecord.Level) ∧
      ((∀ c ∈ warningRecord.Level, c < 0x80) →
        RuneCountInString warningRecord.Level = warningRecord.Level.length) :=
  ⟨by decide,
   Write_level_right_aligned (New recorder) warningBuffer.tail warningBuffer []
    warningRecord (bytes "2023-05-01T10:20:30") (bytes "02:00")
    (by decide) (by decide) (by decide) (by decide)⟩

/-- Counterexample to C5 as stated: a buffer beginning with `{` holds the
sequence ESC `[31m`; the cleanup of a logger made by `New` leaves the buffer as
it is, and the sequence is part of the text written downstream. -/
theorem cleanup_keeps_raw_escape :
    bytes "\x1b[31m" <:+: escBuffer ∧
    cleanup (New recorder).toRemove escBuffer = .ok escBuffer ∧
    (New recorder).Write escBuffer [] =
      .ofWrite (recorder.Write []
        (bytes ("ERROR: Could not read log entry as JSON " ++
          "(invalid character '\\x1b' in string literal): " ++
          "\x7b\"message\":\"\x1b[31mhello\"\x7d"))) ∧
    bytes "\x1b[31m" <:+:
      bytes ("ERROR: Could not read log entry as JSON " ++
          "(invalid character '\\x1b' in string literal): " ++
          "\x7b\"message\":\"\x1b[31mhello\"\x7d") := by
  refine ⟨?_, by decide, by decide, ?_⟩
  · exact ⟨bytes "\x7b\"message\":\"", bytes "hello\"\x7d", by decide⟩
  · exact ⟨bytes ("ERROR: Could not read log entry as JSON " ++
      "(invalid character '\\x1b' in string literal): \x7b\"message\":\""),
      bytes "hello\"\x7d", by decide⟩

/-- C6: for every buffer beginning with `{` whose cleaned text `q` fails to
decode with the error `err`, `Write` does not fail: it returns what one call of
the downstream writer returns for the text
`ERROR: Could not read log entry as JSON (` + `err` + `): ` + `q`, which ends
with the echoed text, no newline added. -/
theorem Write_decode_failure_diagnostic {σ : Type} (h : HumanReadableLogger σ)
    (rest q : List Byte) (sink : σ) (l : logEntry) (err : GoError)
    (hc : cleanup h.toRemove (123 :: rest) = .ok q)
    (hd : Decode q logEntry.zero = .ok (l, some err)) :
    h.Write (123 :: rest) sink =
      .returned
        (h.output.Write sink
          (bytes "ERROR: Could not read log entry as JSON (" ++ err ++ bytes "): " ++ q)).1.1
        (h.output.Write sink
          (bytes "ERROR: Could not read log entry as JSON (" ++ err ++ bytes "): " ++ q)).1.2
        (h.output.Write sink
          (bytes "ERROR: Could not read log entry as JSON (" ++ err ++ bytes "): " ++ q)).2 :=
  Write_diagnostic h rest q sink l err hc hd

/-- The buffer `{not-json}` fails to decode, and the diagnostic with the error
of the decoder is what reaches the sink. -/
theorem Write_decode_failure_diagnostic_witness :
    Decode notJson logEntry.zero =
      .ok (logEntry.zero,
        some (bytes "invalid character 'n' looking for beginning of object key string")) ∧
    (New recorder).Write notJson [] =
      .returned 118 none
        [bytes ("ERROR: Could not read log entry as JSON (invalid character 'n' " ++
          "looking for beginning of object key string): \x7bnot-json\x7d")] :=
  ⟨by decide,
   Write_decode_failure_diagnostic (New recorder) notJson.tail notJson [] logEntry.zero
    (bytes "invalid character 'n' looking for beginning of object key string")
    (by decide) (by decide)⟩

/-- Counterexample to C7 as stated: the buffer `{\x1b[31mnot-json}` (the
sequence spelled out) fails to decode; the diagnostic echoes the cleaned text
`{not-json}`, and for no error message is it the diagnostic that echoes the
buffer as it was passed to `Write`. -/
theorem Write_echoes_cleaned_not_original :
    (New recorder).Write spelledNotJson [] =
      .ofWrite (recorder.Write []
        (diagnostic (bytes "invalid character 'n' looking for beginning of object key string")
          notJson)) ∧
    ∀ err : GoError,
      (New recorder).Write spelledNotJson [] ≠
        .ofWrite (recorder.Write [] (diagnostic err spelledNotJson)) := by
  have h1 : (New recorder).Write spelledNotJson [] =
      .ofWrite (recorder.Write []
        (diagnostic (bytes "invalid character 'n' looking for beginning of object key string")
          notJson)) := by decide
  refine ⟨h1, ?_⟩
  intro err he
  rw [h1] at he
  have hs : spelledNotJson <:+ diagnostic err spelledNotJson := List.suffix_append _ _
  have hx : diagnostic err spelledNotJson =
      diagnostic (bytes "invalid character 'n' looking for beginning of object key string")
        notJson := by
    simp only [Outcome.ofWrite, recorder, List.nil_append, Outcome.returned.injEq,
      List.cons.injEq, and_true] at he
    exact he.2.2.symm
  rw [hx] at hs
  revert hs
  decide

/-- C8: for every buffer beginning with `{` whose cleaned text decodes to a
record whose time holds no `+`, `Write` panics with an index out of range
(index 1 of a slice of length 1) and the sink is as it was: nothing is
written downstream. -/
theorem Write_time_without_plus_panics {σ : Type} (h : HumanReadableLogger σ)
    (rest q : List Byte) (sink : σ) (l : logEntry)
    (hc : cleanup h.toRemove (123 :: rest) = .ok q)
    (hd : Decode q logEntry.zero = .ok (l, none))
    (hplus : 43 ∉ l.Time) :
    h.Write (123 :: rest) sink = .panicked (.indexOutOfRange 1 1) sink :=
  Write_no_zone h rest q sink l hc hd hplus

/-- A record with the time `2023-05-01T10:20:30.5Z` makes `Write` panic; the
recording sink stays empty. -/
theorem Write_time_without_plus_panics_witness :
    Decode utcBuffer logEntry.zero = .ok (utcRecord, none) ∧
    43 ∉ utcRecord.Time ∧
    (New recorder).Write utcBuffer [] = .panicked (.indexOutOfRange 1 1) [] :=
  ⟨by decide, by decide,
   Write_time_without_plus_panics (New recorder) utcBuffer.tail utcBuffer [] utcRecord
    (by decide) (by decide) (by decide)⟩

/-- Counterexample to C9 as stated: the empty object `{}` lacks all fields,
yet it decodes without an error, to the record with every field empty;
`Write` sends no diagnostic, it panics with an index out of range and the
sink stays empty. -/
theorem Write_empty_object_panics :
    Decode (bytes "\x7b\x7d") logEntry.zero = .ok (logEntry.zero, none) ∧
    (New recorder).Write (bytes "\x7b\x7d") [] = .panicked (.indexOutOfRange 1 1) [] := by
  constructor <;> decide

/-- C9, amended: a JSON object that lacks fields is no decode error.  For
every object whose members give string values (of plain ASCII text) to some
of the six fields, in any order, the decoding succeeds and every field the
object lacks is the empty string; `Write` sends no diagnostic: when `time` is
lacking or holds no `+` it panics with an index out of range and writes
nothing, and when `time` holds a `+` it writes the formatted line, the lacking
fields empty in it. -/
theorem Write_object_lacking_fields {σ : Type} (output : Writer σ)
    (kvs : List (Field × List Byte)) (sink : σ)
    (hv : ∀ kv ∈ kvs, ∀ c ∈ kv.2, plain c = true) :
    Decode (objectText kvs) logEntry.zero = .ok (recordOf kvs logEntry.zero, none) ∧
    (∀ f : Field, (∀ kv ∈ kvs, kv.1 ≠ f) → (recordOf kvs logEntry.zero).get f = []) ∧
    ((∀ kv ∈ kvs, kv.1 ≠ .Time) →
      (New output).Write (objectText kvs) sink = .panicked (.indexOutOfRange 1 1) sink) ∧
    (43 ∉ (recordOf kvs logEntry.zero).Time →
      (New output).Write (objectText kvs) sink = .panicked (.indexOutOfRange 1 1) sink) ∧
    (43 ∈ (recordOf kvs logEntry.zero).Time →
      ∃ date zone : List Byte,
        (New output).Write (objectText kvs) sink =
          .ofWrite (output.Write sink
            (date ++ bytes "+" ++ zone ++ bytes " [" ++
              (List.replicate (5 - RuneCountInString (recordOf kvs logEntry.zero).Level) 32 ++
                (recordOf kvs logEntry.zero).Level) ++ bytes "] " ++
              (recordOf kvs logEntry.zero).File ++ bytes ":" ++
              (recordOf kvs logEntry.zero).Line ++ bytes ": " ++
              (recordOf kvs logEntry.zero).Message ++ bytes "\n"))) := by
  have hd : Decode (objectText kvs) logEntry.zero = .ok (recordOf kvs logEntry.zero, none) := by
    have := Decode_objectText kvs [] logEntry.zero hv
    simpa using this
  have hc := cleanup_objectText output kvs hv
  have hget : ∀ f : Field, (∀ kv ∈ kvs, kv.1 ≠ f) →
      (recordOf kvs logEntry.zero).get f = [] := by
    intro f hf
    rw [recordOf_get_lacking kvs f logEntry.zero hf]
    cases f <;> rfl
  have hpanic : 43 ∉ (recordOf kvs logEntry.zero).Time →
      (New output).Write (objectText kvs) sink = .panicked (.indexOutOfRange 1 1) sink :=
    fun hplus => Write_no_zone (New output) (membersText kvs) (objectText kvs) sink _ hc hd hplus
  refine ⟨hd, hget, ?_, hpanic, ?_⟩
  · intro hf
    apply hpanic
    have ht : (recordOf kvs logEntry.zero).Time = [] := hget .Time hf
    simp [ht]
  · intro hplus
    obtain ⟨date, hdate⟩ := index_zero_Split (recordOf kvs logEntry.zero).Time 46
    obtain ⟨zone, hzone⟩ := index_one_Split_mem (recordOf kvs logEntry.zero).Time 43 hplus
    exact ⟨date, zone,
      Write_formatted (New output) (membersText kvs) (objectText kvs) sink _ date zone hc hd
        hdate hzone⟩

/-- The object `{"level":"INFO","message":"hello"}` lacks `time`, `file` and
`line`: the theorem applies to it, and `Write` panics on it. -/
theorem Write_object_lacking_fields_witness :
    objectText [(.Level, bytes "INFO"), (.Message, bytes "hello")] =
      bytes "\x7b\"level\":\"INFO\",\"message\":\"hello\"\x7d" ∧
    Decode (bytes "\x7b\"level\":\"INFO\",\"message\":\"hello\"\x7d") logEntry.zero =
      .ok ({ Time := [], Level := bytes "INFO", Prefix := [], File := [], Line := [],
             Message := bytes "hello" }, none) ∧
    (New recorder).Write (objectText [(.Level, bytes "INFO"), (.Message, bytes "hello")]) [] =
      .panicked (.indexOutOfRange 1 1) [] :=
  ⟨by decide, by decide,
   (Write_object_lacking_fields recorder [(.Level, bytes "INFO"), (.Message, bytes "hello")]
      [] (by decide)).2.2.1 (by decide)⟩

/-- C10: for every non-empty buffer on which `Write` does not fail (the first
byte is not `{`, or the decoding fails, or the decoded time holds a `+`),
`Write` calls the downstream writer exactly once, with one text `out`: the
count and error it returns are those of that call, whatever they are, and the
sink is in the state that one call left, with no second call. -/
theorem Write_issues_one_write {σ : Type} (w : Writer σ) (res : List (Option Regexp))
    (c : Byte) (rest : List Byte) (sink : σ)
    (hok : c ≠ 123 ∨
      (∃ q l err, cleanup res (c :: rest) = .ok q ∧
        Decode q logEntry.zero = .ok (l, some err)) ∨
      (∃ q l, cleanup res (c :: rest) = .ok q ∧
        Decode q logEntry.zero = .ok (l, none) ∧ 43 ∈ l.Time)) :
    ∃ out : List Byte,
      (HumanReadableLogger.mk (counting w) res).Write (c :: rest) (sink, 0) =
        .returned (w.Write sink out).1.1 (w.Write sink out).1.2 ((w.Write sink out).2, 1) := by
  by_cases hc : c = 123
  · subst hc
    rcases hok with h0 | ⟨q, l, err, hq, hd⟩ | ⟨q, l, hq, hd, hplus⟩
    · exact absurd rfl h0
    · exact ⟨diagnostic err q, by
        rw [Write_diagnostic ⟨counting w, res⟩ rest q (sink, 0) l err hq hd]; rfl⟩
    · obtain ⟨date, hdate⟩ := index_zero_Split l.Time 46
      obtain ⟨zone, hzone⟩ := index_one_Split_mem l.Time 43 hplus
      exact ⟨formatted date zone l, by
        rw [Write_formatted ⟨counting w, res⟩ rest q (sink, 0) l date zone hq hd hdate hzone]
        rfl⟩
  · exact ⟨c :: rest, by rw [Write_plain ⟨counting w, res⟩ c rest (sink, 0) hc]; rfl⟩

/-- A sink that fails: the diagnostic for `{not-json}` is its one call, and
its count 0 and its error come back from `Write`. -/
theorem Write_issues_one_write_witness :
    (∃ out : List Byte,
      (HumanReadableLogger.mk (counting brokenPipe) (New brokenPipe).toRemove).Write
          (123 :: notJson.tail) ([], 0) =
        .returned (brokenPipe.Write [] out).1.1 (brokenPipe.Write [] out).1.2
          ((brokenPipe.Write [] out).2, 1)) ∧
    (HumanReadableLogger.mk (counting brokenPipe) (New brokenPipe).toRemove).Write
        notJson ([], 0) =
      .returned 0 (some (bytes "write: broken pipe"))
        ([bytes ("ERROR: Could not read log entry as JSON (invalid character 'n' " ++
          "looking for beginning of object key string): \x7bnot-json\x7d")], 1) :=
  ⟨Write_issues_one_write brokenPipe (New brokenPipe).toRemove 123 notJson.tail []
    (Or.inr (Or.inl ⟨notJson, logEntry.zero,
      bytes "invalid character 'n' looking for beginning of object key string",
      by decide, by decide⟩)),
   by decide⟩

/-! ## The scanner inside an object, and what follows the first value -/

theorem goodStep_error (s : scanner) (c : Byte) (context : String) :
    goodStep (s.error c context) := by
  simp [goodStep, scanner.error]

theorem goodStep_inside (s : scanner) (op : ScanOp) (hs : s.inside)
    (h1 : op ≠ .scanEnd) (h2 : op ≠ .scanEndObject) (h3 : op ≠ .scanEndArray) :
    goodStep (s, op) := by
  exact ⟨h1, Or.inr (Or.inr ⟨h2, h3, hs⟩)⟩

theorem endsOrInside_pop (s : scanner) : endsOrInside s.popParseState := by
  have hsp : isSpace 32 = true := by decide
  unfold endsOrInside scanner.popParseState
  cases hr : s.parseState.tail with
  | nil => simp [stateEndValue, stateEndTop, hsp]
  | cons p ps => simp [stateEndValue, hsp, scanner.inside]

theorem stateEndValue_good (s : scanner) (c : Byte) (h : s.parseState ≠ []) :
    goodStep (stateEndValue s c) := by
  unfold stateEndValue
  cases hp : s.parseState with
  | nil => exact absurd hp h
  | cons p ps =>
    cases p <;> simp only <;> split_ifs <;>
      first
      | exact goodStep_error _ _ _
      | exact goodStep_inside _ _ (by simp [scanner.inside, hp]) (by decide) (by decide)
          (by decide)
      | exact ⟨by simp, Or.inr (Or.inl ⟨by simp, endsOrInside_pop _⟩)⟩

theorem goodStep_pair (s : scanner) (op : ScanOp) (h1 : s.parseState ≠ [])
    (h2 : s.step ≠ .stateEndTop) (h3 : op ≠ .scanEnd ∧ op ≠ .scanEndObject ∧
      op ≠ .scanEndArray) : goodStep (s, op) :=
  goodStep_inside s op ⟨h1, h2⟩ h3.1 h3.2.1 h3.2.2

theorem goodStep_ite (p : Prop) [Decidable p] (a b : scanner × ScanOp)
    (ha : goodStep a) (hb : goodStep b) : goodStep (if p then a else b) := by
  by_cases hp : p
  · rw [if_pos hp]; exact ha
  · rw [if_neg hp]; exact hb

theorem pushParseState_good (s : scanner) (c : Byte) (p : ParseState) (op : ScanOp)
    (hstep : s.step ≠ .stateEndTop)
    (h : op ≠ .scanEnd ∧ op ≠ .scanEndObject ∧ op ≠ .scanEndArray) :
    goodStep (s.pushParseState c p op) := by
  unfold scanner.pushParseState
  exact goodStep_ite _ _ _ (goodStep_pair _ _ (by simp) hstep h) (goodStep_error _ _ _)

theorem stateBeginValue_good (s : scanner) (c : Byte) (h : s.inside) :
    goodStep (stateBeginValue s c) := by
  have hin : ∀ (st : StepFn) (op : ScanOp), st ≠ .stateEndTop →
      (op ≠ .scanEnd ∧ op ≠ .scanEndObject ∧ op ≠ .scanEndArray) →
      goodStep ({ s with step := st }, op) := fun st op h0 h1 =>
    goodStep_pair _ _ h.1 h0 h1
  unfold stateBeginValue
  refine goodStep_ite _ _ _ (goodStep_pair _ _ h.1 h.2 (by simp)) ?_
  refine goodStep_ite _ _ _ (pushParseState_good _ _ _ _ (by simp) (by simp)) ?_
  refine goodStep_ite _ _ _ (pushParseState_good _ _ _ _ (by simp) (by simp)) ?_
  refine goodStep_ite _ _ _ (hin _ _ (by simp) (by simp)) ?_
  refine goodStep_ite _ _ _ (hin _ _ (by simp) (by simp)) ?_
  refine goodStep_ite _ _ _ (hin _ _ (by simp) (by simp)) ?_
  refine goodStep_ite _ _ _ (hin _ _ (by simp) (by simp)) ?_
  refine goodStep_ite _ _ _ (hin _ _ (by simp) (by simp)) ?_
  refine goodStep_ite _ _ _ (hin _ _ (by simp) (by simp)) ?_
  exact goodStep_ite _ _ _ (hin _ _ (by simp) (by simp)) (goodStep_error _ _ _)

theorem stateBeginString_good (s : scanner) (c : Byte) (h : s.inside) :
    goodStep (stateBeginString s c) := by
  unfold stateBeginString
  refine goodStep_ite _ _ _ (goodStep_pair _ _ h.1 h.2 (by simp)) ?_
  exact goodStep_ite _ _ _ (goodStep_pair _ _ h.1 (by simp) (by simp)) (goodStep_error _ _ _)

theorem state0_good (s : scanner) (c : Byte) (h : s.inside) : goodStep (state0 s c) := by
  unfold state0
  refine goodStep_ite _ _ _ (goodStep_pair _ _ h.1 (by simp) (by simp)) ?_
  exact goodStep_ite _ _ _ (goodStep_pair _ _ h.1 (by simp) (by simp))
    (stateEndValue_good _ _ h.1)

theorem stateESign_good (s : scanner) (c : Byte) (h : s.inside) :
    goodStep (stateESign s c) := by
  unfold stateESign
  exact goodStep_ite _ _ _ (goodStep_pair _ _ h.1 (by simp) (by simp)) (goodStep_error _ _ _)

theorem stepByte_good (s : scanner) (c : Byte) (h : s.inside) : goodStep (s.stepByte c) := by
  have hin : ∀ (st : StepFn) (op : ScanOp), st ≠ .stateEndTop →
      (op ≠ .scanEnd ∧ op ≠ .scanEndObject ∧ op ≠ .scanEndArray) →
      goodStep ({ s with step := st }, op) := fun st op h0 h1 =>
    goodStep_pair _ _ h.1 h0 h1
  have hsame : goodStep (s, .scanContinue) := goodStep_pair _ _ h.1 h.2 (by simp)
  have hexp : ∀ (want : Byte) (next : StepFn) (context : String), next ≠ .stateEndTop →
      goodStep (if c = want then ({ s with step := next }, ScanOp.scanContinue)
        else s.error c context) := fun want next context hn =>
    goodStep_ite _ _ _ (hin _ _ hn (by simp)) (goodStep_error _ _ _)
  have hhex : ∀ (next : StepFn), next ≠ .stateEndTop →
      goodStep (if isHex c = true then ({ s with step := next }, ScanOp.scanContinue)
        else s.error c "in \\u hexadecimal character escape") := fun next hn =>
    goodStep_ite _ _ _ (hin _ _ hn (by simp)) (goodStep_error _ _ _)
  unfold scanner.stepByte
  simp only
  split
  · unfold stateBeginValueOrEmpty
    refine goodStep_ite _ _ _ (goodStep_pair _ _ h.1 h.2 (by simp)) ?_
    exact goodStep_ite _ _ _ (stateEndValue_good _ _ h.1) (stateBeginValue_good _ _ h)
  · exact stateBeginValue_good _ _ h
  · unfold stateBeginStringOrEmpty
    refine goodStep_ite _ _ _ (goodStep_pair _ _ h.1 h.2 (by simp)) ?_
    exact goodStep_ite _ _ _ (stateEndValue_good _ _ (by simp)) (stateBeginString_good _ _ h)
  · exact stateBeginString_good _ _ h
  · exact stateEndValue_good _ _ h.1
  · rename_i hs; exact absurd hs h.2
  · refine goodStep_ite _ _ _ (hin _ _ (by simp) (by simp)) ?_
    refine goodStep_ite _ _ _ (hin _ _ (by simp) (by simp)) ?_
    exact goodStep_ite _ _ _ (goodStep_error _ _ _) hsame
  · refine goodStep_ite _ _ _ (hin _ _ (by simp) (by simp)) ?_
    exact goodStep_ite _ _ _ (hin _ _ (by simp) (by simp)) (goodStep_error _ _ _)
  · exact hhex _ (by simp)
  · exact hhex _ (by simp)
  · exact hhex _ (by simp)
  · exact hhex _ (by simp)
  · refine goodStep_ite _ _ _ (hin _ _ (by simp) (by simp)) ?_
    exact goodStep_ite _ _ _ (hin _ _ (by simp) (by simp)) (goodStep_error _ _ _)
  · exact goodStep_ite _ _ _ (hin _ _ (by simp) (by simp)) (state0_good _ _ h)
  · exact state0_good _ _ h
  · exact goodStep_ite _ _ _ (hin _ _ (by simp) (by simp)) (goodStep_error _ _ _)
  · refine goodStep_ite _ _ _ hsame ?_
    exact goodStep_ite _ _ _ (hin _ _ (by simp) (by simp)) (stateEndValue_good _ _ h.1)
  · exact goodStep_ite _ _ _ (hin _ _ (by simp) (by simp)) (stateESign_good _ _ h)
  · exact stateESign_good _ _ h
  · exact goodStep_ite _ _ _ hsame (stateEndValue_good _ _ h.1)
  all_goals first
    | exact hexp _ _ _ (by simp)
    | exact goodStep_pair _ _ h.1 h.2 (by simp)

theorem map_eq_ok (f : List Byte → List Byte) (x : Except GoError (List Byte))
    (v : List Byte) : x.map f = .ok v ↔ ∃ v', x = .ok v' ∧ f v' = v := by
  cases x with
  | error e => simp [Except.map]
  | ok a => simp [Except.map]

theorem readValueLoop_append (buf buf' tail : List Byte) :
    ∀ (data : List Byte) (s : scanner) (v : List Byte), s.inside →
      readValueLoop buf s data = .ok v → readValueLoop buf' s (data ++ tail) = .ok v := by
  intro data
  induction data with
  | nil =>
    intro s v hs h
    have hg := (stepByte_good s 32 hs).1
    rw [readValueLoop] at h
    rw [if_neg hg] at h
    split_ifs at h
  | cons c rest ih =>
    intro s v hs h
    obtain ⟨hne, hcases⟩ := stepByte_good s c hs
    rw [readValueLoop] at h
    rw [List.cons_append, readValueLoop]
    cases hr : s.stepByte c with
    | mk s1 op =>
      rw [hr] at h hne hcases
      have hrec : ∀ s2 : scanner, s2.inside →
          (readValueLoop buf s2 rest).map (c :: ·) = .ok v →
          (readValueLoop buf' s2 (rest ++ tail)).map (c :: ·) = .ok v := by
        intro s2 hs2 h2
        obtain ⟨v', hv', hcv⟩ := (map_eq_ok _ _ _).mp h2
        exact (map_eq_ok _ _ _).mpr ⟨v', ih s2 v' hs2 hv', hcv⟩
      have hend : ∀ s1 : scanner, endsOrInside s1 →
          (match stateEndValue s1 32 with
            | (_, .scanEnd) => (Except.ok [c] : Except GoError (List Byte))
            | (s2, _) => (readValueLoop buf s2 rest).map (c :: ·)) = .ok v →
          (match stateEndValue s1 32 with
            | (_, .scanEnd) => (Except.ok [c] : Except GoError (List Byte))
            | (s2, _) => (readValueLoop buf' s2 (rest ++ tail)).map (c :: ·)) = .ok v := by
        intro s1 he h2
        cases hr2 : stateEndValue s1 32 with
        | mk s2 op2 =>
          rw [hr2] at h2
          unfold endsOrInside at he
          rw [hr2] at he
          cases op2 <;> simp only at h2 he ⊢ <;>
            first
            | exact h2
            | exact hrec s2 (by simpa using he) h2
      cases op <;> simp only at h hne hcases ⊢ <;>
        first
        | exact h
        | exact absurd rfl hne
        | exact hend s1 (by simpa using hcases) h
        | exact hrec s1 (by simpa using hcases) h

theorem readValue_append (rest tail v : List Byte) (h : readValue (123 :: rest) = .ok v) :
    readValue (123 :: rest ++ tail) = .ok v := by
  have hs : isSpace 123 = false := by decide
  have h123 : scanner.reset.stepByte 123 =
      (⟨.stateBeginStringOrEmpty, false, [.parseObjectKey], none⟩, .scanBeginObject) := by
    simp [scanner.reset, scanner.stepByte, stateBeginValue, hs, scanner.pushParseState,
      maxNestingDepth]
  rw [readValue, readValueLoop] at h
  rw [readValue, List.cons_append, readValueLoop]
  simp only [h123] at h ⊢
  obtain ⟨v', hv', hcv⟩ := (map_eq_ok _ _ _).mp h
  exact (map_eq_ok _ _ _).mpr
    ⟨v', readValueLoop_append _ _ tail rest _ v' ⟨by simp, by simp⟩ hv', hcv⟩

theorem Decode_append (rest tail : List Byte) (l l' : logEntry)
    (h : Decode (123 :: rest) l = .ok (l', none)) :
    Decode (123 :: rest ++ tail) l = .ok (l', none) := by
  unfold Decode at h ⊢
  cases hr : readValue (123 :: rest) with
  | error e => rw [hr] at h; simp at h
  | ok v =>
    rw [readValue_append rest tail v hr]
    rw [hr] at h
    exact h

theorem stripLit_append_outside (pre s v : List Byte) (b : Byte) (hb : b ∉ pre) :
    stripLit pre (s ++ b :: v) = (stripLit pre s).map (· ++ b :: v) := by
  induction pre generalizing s with
  | nil => simp [stripLit]
  | cons a pre ih =>
    have hab : a ≠ b := fun e => hb (by simp [e])
    have hpre : b ∉ pre := fun e => hb (by simp [e])
    cases s with
    | nil => simp [stripLit, hab]
    | cons c s =>
      rw [List.cons_append]
      simp only [stripLit]
      by_cases hac : a = c
      · simp only [hac, if_true]; exact ih s hpre
      · simp only [hac, if_false]; rfl

theorem dropWhile_append_outside (p : Byte → Bool) (r v : List Byte) (b : Byte)
    (hb : p b = false) :
    List.dropWhile p (r ++ b :: v) = List.dropWhile p r ++ b :: v := by
  induction r with
  | nil => simp [List.dropWhile, hb]
  | cons c r ih =>
    rw [List.cons_append, List.dropWhile_cons, List.dropWhile_cons]
    by_cases hc : p c = true
    · simp only [hc, if_true]; exact ih
    · simp only [hc]; rfl

theorem matchAt_append_outside (re : Regexp) (s v : List Byte) (b : Byte)
    (h1 : b ∉ re.lit) (h2 : ¬ (re.lo ≤ b ∧ b ≤ re.hi)) (h3 : b ≠ re.close) :
    re.matchAt (s ++ b :: v) = (re.matchAt s).map (· ++ b :: v) := by
  unfold Regexp.matchAt
  rw [stripLit_append_outside re.lit s v b h1]
  cases hs : stripLit re.lit s with
  | none => rfl
  | some r =>
    simp only [Option.map_some']
    rw [dropWhile_append_outside _ r v b (by simpa using h2)]
    cases hd : List.dropWhile (fun c => decide (re.lo ≤ c ∧ c ≤ re.hi)) r with
    | nil => simp [h3]
    | cons c r2 =>
      simp only [List.cons_append]
      by_cases hc : c = re.close
      · simp [hc]
      · simp [hc]

theorem ReplaceAll_append_outside (re : Regexp) (v : List Byte) (b : Byte)
    (h1 : b ∉ re.lit) (h2 : ¬ (re.lo ≤ b ∧ b ≤ re.hi)) (h3 : b ≠ re.close) :
    ∀ (n : Nat) (s : List Byte), s.length ≤ n →
      re.ReplaceAll (s ++ b :: v) [] = re.ReplaceAll s [] ++ b :: re.ReplaceAll v [] := by
  intro n
  induction n with
  | zero =>
    intro s hs
    have : s = [] := List.length_eq_zero.mp (Nat.le_zero.mp hs)
    subst this
    have hm := matchAt_append_outside re [] v b h1 h2 h3
    have hnil : re.matchAt [] = none := by
      unfold Regexp.matchAt
      cases hl : re.lit with
      | nil => simp [stripLit]
      | cons a pre => simp [stripLit]
    rw [hnil] at hm
    simp only [List.nil_append, Option.map_none'] at hm ⊢
    rw [ReplaceAll_cons_none re [] b v hm, ReplaceAll_nil]
    rfl
  | succ n ih =>
    intro s hs
    cases s with
    | nil => exact ih [] (Nat.zero_le _)
    | cons c s =>
      have hm := matchAt_append_outside re (c :: s) v b h1 h2 h3
      rw [List.cons_append] at hm ⊢
      cases hr : re.matchAt (c :: s) with
      | none =>
        rw [hr] at hm
        rw [ReplaceAll_cons_none re [] c _ hm, ReplaceAll_cons_none re [] c s hr,
          ih s (by simpa using hs)]
        rfl
      | some r =>
        rw [hr] at hm
        have hl := matchAt_length re (c :: s) r hr
        simp only [List.length_cons] at hl hs
        rw [ReplaceAll_cons_some re [] c _ _ hm, ReplaceAll_cons_some re [] c s r hr,
          ih r (by omega)]
        rfl

/-! ## The pieces of the time -/

theorem index_zero_Split_eq (s : List Byte) (sep : Byte) :
    index (Split s sep) 0 = .ok (beforeFirst sep s) := by
  induction s with
  | nil => simp [Split_nil, index, beforeFirst]
  | cons c rest ih =>
    rw [Split_cons]
    by_cases hc : c = sep
    · simp [hc, index, beforeFirst]
    · cases hs : Split rest sep with
      | nil => exact absurd hs (Split_ne_nil rest sep)
      | cons y ys =>
        rw [hs] at ih
        have hy : y = beforeFirst sep rest := by simpa [index] using ih
        simp [hc, index, beforeFirst, hy]

theorem index_one_Split_eq (s : List Byte) (sep : Byte) (h : sep ∈ s) :
    index (Split s sep) 1 = .ok (beforeFirst sep (afterFirst sep s)) := by
  induction s with
  | nil => simp at h
  | cons c rest ih =>
    rw [Split_cons]
    by_cases hc : c = sep
    · have h0 := index_zero_Split_eq rest sep
      cases hs : Split rest sep with
      | nil => exact absurd hs (Split_ne_nil rest sep)
      | cons y ys =>
        rw [hs] at h0
        have hy : y = beforeFirst sep rest := by simpa [index] using h0
        simp [hc, index, afterFirst, hy]
    · have hr : sep ∈ rest := by
        rcases List.mem_cons.mp h with e | e
        · exact absurd e.symm hc
        · exact e
      have h1 := ih hr
      cases hs : Split rest sep with
      | nil => exact absurd hs (Split_ne_nil rest sep)
      | cons y ys =>
        rw [hs] at h1
        simp only [hc, if_false, afterFirst]
        cases ys with
        | nil => simp [index] at h1
        | cons y2 ys2 => simpa [index] using h1

theorem beforeFirst_not_mem (s : List Byte) (sep : Byte) (h : sep ∉ s) :
    beforeFirst sep s = s := by
  induction s with
  | nil => rfl
  | cons c rest ih =>
    have hc : c ≠ sep := fun e => h (by simp [e])
    have hr : sep ∉ rest := fun e => h (by simp [e])
    simp [beforeFirst, hc, ih hr]

/-! ## The claims, continued -/

/-- Counterexample to C11 as stated: the time `2023-05-01T10:20:30.5+02:00+x`
holds two `+`; the entire portion after its first `+` is `02:00+x`, yet the
line has `02:00` behind its `+`, so it is not the line with that portion. -/
theorem Write_zone_stops_at_second_plus :
    Decode twoPlusBuffer logEntry.zero = .ok (twoPlusRecord, none) ∧
    afterFirst 43 twoPlusRecord.Time = bytes "02:00+x" ∧
    (New recorder).Write twoPlusBuffer [] =
      .ofWrite (recorder.Write [] (bytes "2023-05-01T10:20:30+02:00 [ INFO] a.go:1: m\n")) ∧
    (New recorder).Write twoPlusBuffer [] ≠
      .ofWrite (recorder.Write []
        (beforeFirst 46 twoPlusRecord.Time ++ bytes "+" ++ afterFirst 43 twoPlusRecord.Time ++
          bytes " [" ++
          (List.replicate (5 - RuneCountInString twoPlusRecord.Level) 32 ++
            twoPlusRecord.Level) ++ bytes "] " ++ twoPlusRecord.File ++ bytes ":" ++
          twoPlusRecord.Line ++ bytes ": " ++ twoPlusRecord.Message ++ bytes "\n")) := by
  refine ⟨by decide, by decide, by decide, by decide⟩

/-- C11, amended: for every successfully decoded record whose time holds at
least one `+`, the date part printed before the `+` of the line is the portion
of the time before its first `.` (all of it when it holds no `.`), and the
time zone part printed after that `+` is the portion of the time between its
first `+` and its second `+`; it is the entire portion after the first `+`
when the time holds no second `+`. -/
theorem Write_date_and_zone_parts {σ : Type} (h : HumanReadableLogger σ)
    (rest q : List Byte) (sink : σ) (l : logEntry)
    (hc : cleanup h.toRemove (123 :: rest) = .ok q)
    (hd : Decode q logEntry.zero = .ok (l, none))
    (hplus : 43 ∈ l.Time) :
    h.Write (123 :: rest) sink =
      .ofWrite (h.output.Write sink
        (beforeFirst 46 l.Time ++ bytes "+" ++ beforeFirst 43 (afterFirst 43 l.Time) ++
          bytes " [" ++ (List.replicate (5 - RuneCountInString l.Level) 32 ++ l.Level) ++
          bytes "] " ++ l.File ++ bytes ":" ++ l.Line ++ bytes ": " ++ l.Message ++
          bytes "\n")) ∧
    (43 ∉ afterFirst 43 l.Time →
      beforeFirst 43 (afterFirst 43 l.Time) = afterFirst 43 l.Time) := by
  constructor
  · rw [Write_formatted h rest q sink l _ _ hc hd (index_zero_Split_eq l.Time 46)
      (index_one_Split_eq l.Time 43 hplus), formatted_eq]
  · exact beforeFirst_not_mem _ 43

/-- The record with two `+` in its time satisfies the hypotheses; its line has
the portion between the two. -/
theorem Write_date_and_zone_parts_witness :
    43 ∈ twoPlusRecord.Time ∧
    beforeFirst 43 (afterFirst 43 twoPlusRecord.Time) = bytes "02:00" ∧
    ((New recorder).Write (123 :: twoPlusBuffer.tail) [] =
      .ofWrite ((New recorder).output.Write []
        (beforeFirst 46 twoPlusRecord.Time ++ bytes "+" ++
          beforeFirst 43 (afterFirst 43 twoPlusRecord.Time) ++
          bytes " [" ++
          (List.replicate (5 - RuneCountInString twoPlusRecord.Level) 32 ++
            twoPlusRecord.Level) ++
          bytes "] " ++ twoPlusRecord.File ++ bytes ":" ++ twoPlusRecord.Line ++ bytes ": " ++
          twoPlusRecord.Message ++ bytes "\n")) ∧
    (43 ∉ afterFirst 43 twoPlusRecord.Time →
      beforeFirst 43 (afterFirst 43 twoPlusRecord.Time) = afterFirst 43 twoPlusRecord.Time)) :=
  ⟨by decide, by decide,
   Write_date_and_zone_parts (New recorder) twoPlusBuffer.tail twoPlusBuffer []
    twoPlusRecord (by decide) (by decide) (by decide)⟩

/-- C13: `Write` on an empty buffer panics at the access to its first byte,
with an index out of range (index 0 of a slice of length 0), and the sink is
as it was: nothing is written downstream, and there is no pass-through of a
buffer of length zero. -/
theorem Write_empty_buffer_panics {σ : Type} (h : HumanReadableLogger σ) (sink : σ) :
    h.Write [] sink = .panicked (.indexOutOfRange 0 0) sink := rfl

/-- C15: for every successfully decoded record whose time holds a `+` and no
`.`, the date part of the line is the whole time, followed by `+` and the time
zone part; when the time is `S + "+" + Z` with no `+` in `S` and `Z`, the line
begins with `S+Z+Z [`: the time zone stands twice. -/
theorem Write_time_without_dot_repeats_zone {σ : Type} (h : HumanReadableLogger σ)
    (rest q : List Byte) (sink : σ) (l : logEntry)
    (hc : cleanup h.toRemove (123 :: rest) = .ok q)
    (hd : Decode q logEntry.zero = .ok (l, none))
    (hdot : 46 ∉ l.Time) (hplus : 43 ∈ l.Time) :
    ∃ zone : List Byte,
      h.Write (123 :: rest) sink =
        .ofWrite (h.output.Write sink
          (l.Time ++ bytes "+" ++ zone ++ bytes " [" ++
            (List.replicate (5 - RuneCountInString l.Level) 32 ++ l.Level) ++ bytes "] " ++
            l.File ++ bytes ":" ++ l.Line ++ bytes ": " ++ l.Message ++ bytes "\n")) ∧
      (∀ S Z : List Byte, l.Time = S ++ bytes "+" ++ Z → 43 ∉ S → 43 ∉ Z →
        zone = Z ∧ l.Time ++ bytes "+" ++ zone = S ++ bytes "+" ++ Z ++ bytes "+" ++ Z) := by
  refine ⟨beforeFirst 43 (afterFirst 43 l.Time), ?_, ?_⟩
  · have hdate : index (Split l.Time 46) 0 = .ok l.Time := by
      rw [Split_not_mem l.Time 46 hdot]
      simp [index]
    rw [Write_formatted h rest q sink l _ _ hc hd hdate
      (index_one_Split_eq l.Time 43 hplus), formatted_eq]
  · intro S Z ht hS hZ
    have h2 : bytes "+" = [43] := by decide
    have hz : beforeFirst 43 (afterFirst 43 l.Time) = Z := by
      have h1 := index_one_Split_eq l.Time 43 hplus
      have ht' : l.Time = S ++ 43 :: Z := by simp [ht, h2]
      rw [ht', Split_append_sep S Z 43 hS, Split_not_mem Z 43 hZ] at h1
      simp only [index, List.get?_cons_succ, List.get?_cons_zero] at h1
      rw [ht']
      injection h1 with h1
      exact h1.symm
    rw [hz]
    exact ⟨rfl, by rw [ht]⟩

/-- The time `2023-05-01T10:20:30+02:00` of the example: the line begins with
`2023-05-01T10:20:30+02:00+02:00 [`. -/
theorem Write_time_without_dot_repeats_zone_witness :
    (New recorder).Write noDotBuffer [] =
      .ofWrite (recorder.Write []
        (bytes "2023-05-01T10:20:30+02:00+02:00 [ INFO] a.go:1: m\n")) ∧
    ∃ zone : List Byte,
      (New recorder).Write (123 :: noDotBuffer.tail) [] =
        .ofWrite ((New recorder).output.Write []
          (noDotRecord.Time ++ bytes "+" ++ zone ++ bytes " [" ++
            (List.replicate (5 - RuneCountInString noDotRecord.Level) 32 ++
              noDotRecord.Level) ++ bytes "] " ++
            noDotRecord.File ++ bytes ":" ++ noDotRecord.Line ++ bytes ": " ++
            noDotRecord.Message ++ bytes "\n")) ∧
      (∀ S Z : List Byte, noDotRecord.Time = S ++ bytes "+" ++ Z → 43 ∉ S → 43 ∉ Z →
        zone = Z ∧
        noDotRecord.Time ++ bytes "+" ++ zone = S ++ bytes "+" ++ Z ++ bytes "+" ++ Z) :=
  ⟨by decide,
   Write_time_without_dot_repeats_zone (New recorder) noDotBuffer.tail noDotBuffer []
    noDotRecord (by decide) (by decide) (by decide) (by decide)⟩

theorem stripLit_eq (pre s r : List Byte) (h : stripLit pre s = some r) : s = pre ++ r := by
  induction pre generalizing s with
  | nil => simp [stripLit] at h; simp [h]
  | cons a pre ih =>
    cases s with
    | nil => simp [stripLit] at h
    | cons c s =>
      simp only [stripLit] at h
      by_cases hac : a = c
      · rw [if_pos hac] at h
        rw [List.cons_append, ← ih s h, hac]
      · rw [if_neg hac] at h
        simp at h

theorem matchAt_suffix (re : Regexp) (s r : List Byte) (h : re.matchAt s = some r) :
    r <:+ s := by
  unfold Regexp.matchAt at h
  cases h0 : stripLit re.lit s with
  | none => rw [h0] at h; simp at h
  | some r0 =>
    rw [h0] at h
    simp only at h
    have hs0 : r0 <:+ s := by
      rw [stripLit_eq re.lit s r0 h0]
      exact List.suffix_append _ _
    have hd : List.dropWhile (fun c => decide (re.lo ≤ c ∧ c ≤ re.hi)) r0 <:+ r0 :=
      List.dropWhile_suffix _
    cases h2 : List.dropWhile (fun c => decide (re.lo ≤ c ∧ c ≤ re.hi)) r0 with
    | nil => rw [h2] at h; simp at h
    | cons c r2 =>
      rw [h2] at h hd
      simp only at h
      by_cases hc : c = re.close
      · rw [if_pos hc] at h
        simp only [Option.some.injEq] at h
        subst h
        exact ((List.suffix_cons c r2).trans hd).trans hs0
      · rw [if_neg hc] at h
        simp at h

theorem matchAt_escape_head (t r : List Byte) (h : escapePattern.matchAt t = some r) :
    t.head? = some 92 := by
  cases t with
  | nil =>
    have : escapePattern.matchAt [] = none := by decide
    rw [this] at h
    simp at h
  | cons c rest =>
    by_cases hc : c = 92
    · simp [hc]
    · rw [matchAt_escape_ne c rest hc] at h
      simp at h

theorem containsMatch_false_of_no_backslash (q : List Byte) (h : 92 ∉ q) :
    containsMatch escapePattern q = false := by
  unfold containsMatch
  rw [List.any_eq_false]
  intro t ht
  rw [List.mem_tails] at ht
  cases hm : escapePattern.matchAt t with
  | none => simp
  | some r =>
    exfalso
    have hh := matchAt_escape_head t r hm
    cases t with
    | nil => simp at hh
    | cons c rest =>
      simp only [List.head?_cons, Option.some.injEq] at hh
      subst hh
      exact h (ht.subset (by simp))

theorem Write_recorder_log (res : List (Option Regexp)) (p : List Byte)
    (log : List (List Byte)) :
    ((HumanReadableLogger.mk recorder res).Write p log).result =
        ((HumanReadableLogger.mk recorder res).Write p []).result ∧
      ((HumanReadableLogger.mk recorder res).Write p log).sink =
        log ++ ((HumanReadableLogger.mk recorder res).Write p []).sink := by
  cases p with
  | nil => simp [HumanReadableLogger.Write, Outcome.result, Outcome.sink]
  | cons c rest =>
    by_cases hc : c = 123
    · subst hc
      cases hcl : cleanup res (123 :: rest) with
      | error e => simp [HumanReadableLogger.Write, hcl, Outcome.result, Outcome.sink]
      | ok q =>
        cases hd : Decode q logEntry.zero with
        | error e => simp [HumanReadableLogger.Write, hcl, hd, Outcome.result, Outcome.sink]
        | ok r =>
          obtain ⟨l, oerr⟩ := r
          cases oerr with
          | some err =>
            rw [Write_diagnostic ⟨recorder, res⟩ rest q log l err hcl hd,
              Write_diagnostic ⟨recorder, res⟩ rest q [] l err hcl hd]
            simp [Outcome.ofWrite, recorder, Outcome.result, Outcome.sink]
          | none =>
            by_cases hplus : 43 ∈ l.Time
            · obtain ⟨date, hdate⟩ := index_zero_Split l.Time 46
              obtain ⟨zone, hzone⟩ := index_one_Split_mem l.Time 43 hplus
              rw [Write_formatted ⟨recorder, res⟩ rest q log l date zone hcl hd hdate hzone,
                Write_formatted ⟨recorder, res⟩ rest q [] l date zone hcl hd hdate hzone]
              simp [Outcome.ofWrite, recorder, Outcome.result, Outcome.sink]
            · rw [Write_no_zone ⟨recorder, res⟩ rest q log l hcl hd hplus,
                Write_no_zone ⟨recorder, res⟩ rest q [] l hcl hd hplus]
              simp [Outcome.result, Outcome.sink]
    · rw [Write_plain ⟨recorder, res⟩ c rest log hc, Write_plain ⟨recorder, res⟩ c rest [] hc]
      simp [Outcome.ofWrite, recorder, Outcome.result, Outcome.sink]

/-- Counterexample to C12 as stated: the buffer `{\x1b\x1b[m[m` is cleaned by
a logger made by `New` to `{\x1b[m`, in which a match of the pattern begins;
that text is what is decoded and, the decoding failing, echoed. -/
theorem cleanup_can_leave_a_match :
    cleanup (New recorder).toRemove nestedSpelled = .ok (bytes "\x7b\\x1b[m") ∧
    containsMatch escapePattern (bytes "\x7b\\x1b[m") = true ∧
    (New recorder).Write nestedSpelled [] =
      .ofWrite (recorder.Write []
        (bytes ("ERROR: Could not read log entry as JSON (invalid character '\\\\' " ++
          "looking for beginning of object key string): \x7b\\x1b[m"))) := by
  refine ⟨by decide, by decide, by decide⟩

theorem Write_eq_of_decoded {σ : Type} (h : HumanReadableLogger σ)
    (rest1 rest2 q1 q2 : List Byte) (sink : σ) (l : logEntry)
    (hc1 : cleanup h.toRemove (123 :: rest1) = .ok q1)
    (hc2 : cleanup h.toRemove (123 :: rest2) = .ok q2)
    (hd1 : Decode q1 logEntry.zero = .ok (l, none))
    (hd2 : Decode q2 logEntry.zero = .ok (l, none)) :
    h.Write (123 :: rest1) sink = h.Write (123 :: rest2) sink := by
  by_cases hplus : 43 ∈ l.Time
  · obtain ⟨date, hdate⟩ := index_zero_Split l.Time 46
    obtain ⟨zone, hzone⟩ := index_one_Split_mem l.Time 43 hplus
    rw [Write_formatted h rest1 q1 sink l date zone hc1 hd1 hdate hzone,
      Write_formatted h rest2 q2 sink l date zone hc2 hd2 hdate hzone]
  · rw [Write_no_zone h rest1 q1 sink l hc1 hd1 hplus,
      Write_no_zone h rest2 q2 sink l hc2 hd2 hplus]

theorem ReplaceAll_object_append (body tail : List Byte) :
    escapePattern.ReplaceAll (123 :: (body ++ 125 :: tail)) [] =
      123 :: (escapePattern.ReplaceAll body [] ++ [125]) ++
        escapePattern.ReplaceAll tail [] := by
  have h1 : (125 : Byte) ∉ escapePattern.lit := by decide
  have h2 : ¬ (escapePattern.lo ≤ 125 ∧ 125 ≤ escapePattern.hi) := by decide
  have h3 : (125 : Byte) ≠ escapePattern.close := by decide
  rw [ReplaceAll_cons_none _ _ 123 _ (matchAt_escape_ne 123 _ (by decide)),
    ReplaceAll_append_outside escapePattern tail 125 h1 h2 h3 body.length body (Nat.le_refl _)]
  simp

theorem ReplaceAll_object (body : List Byte) :
    escapePattern.ReplaceAll (123 :: (body ++ [125])) [] =
      123 :: (escapePattern.ReplaceAll body [] ++ [125]) := by
  have h := ReplaceAll_object_append body []
  rw [ReplaceAll_nil] at h
  simpa using h

/-- C16: with a sink that accepts every write in full, on the diagnostic
branch and on the formatted-record branch the count `Write` returns is the
length in bytes of the text it wrote downstream, not the length of the buffer
it was given: for the example record it returns 52 for a buffer of 118 bytes,
and for the buffer `{not-json}` of 10 bytes it returns 118. -/
theorem Write_count_is_length_written {σ : Type} (w : Writer σ)
    (res : List (Option Regexp))
    (hw : ∀ (s : σ) (b : List Byte), (w.Write s b).1 = ((b.length : Int), none)) :
    (∀ (rest q : List Byte) (sink : σ) (l : logEntry) (err : GoError),
      cleanup res (123 :: rest) = .ok q → Decode q logEntry.zero = .ok (l, some err) →
      (HumanReadableLogger.mk w res).Write (123 :: rest) sink =
        .returned
          ((bytes "ERROR: Could not read log entry as JSON (" ++ err ++ bytes "): " ++
            q).length : Int) none
          (w.Write sink
            (bytes "ERROR: Could not read log entry as JSON (" ++ err ++ bytes "): " ++
              q)).2) ∧
    (∀ (rest q : List Byte) (sink : σ) (l : logEntry) (date zone : List Byte),
      cleanup res (123 :: rest) = .ok q → Decode q logEntry.zero = .ok (l, none) →
      index (Split l.Time 46) 0 = .ok date → index (Split l.Time 43) 1 = .ok zone →
      (HumanReadableLogger.mk w res).Write (123 :: rest) sink =
        .returned
          ((date ++ bytes "+" ++ zone ++ bytes " [" ++
            (List.replicate (5 - RuneCountInString l.Level) 32 ++ l.Level) ++ bytes "] " ++
            l.File ++ bytes ":" ++ l.Line ++ bytes ": " ++ l.Message ++
            bytes "\n").length : Int) none
          (w.Write sink
            (date ++ bytes "+" ++ zone ++ bytes " [" ++
              (List.replicate (5 - RuneCountInString l.Level) 32 ++ l.Level) ++ bytes "] " ++
              l.File ++ bytes ":" ++ l.Line ++ bytes ": " ++ l.Message ++ bytes "\n")).2) ∧
    ((New recorder).Write sampleBuffer [] =
        .returned 52 none [bytes "2023-05-01T10:20:30+02:00 [ INFO] main.go:42: hello\n"] ∧
      sampleBuffer.length = 118) ∧
    ((New recorder).Write notJson [] =
        .returned 118 none
          [bytes ("ERROR: Could not read log entry as JSON (invalid character 'n' " ++
            "looking for beginning of object key string): \x7bnot-json\x7d")] ∧
      notJson.length = 10) := by
  refine ⟨?_, ?_, ⟨by decide, by decide⟩, ⟨by decide, by decide⟩⟩
  · intro rest q sink l err hc hd
    rw [Write_diagnostic ⟨w, res⟩ rest q sink l err hc hd]
    simp only [Outcome.ofWrite, hw, diagnostic]
  · intro rest q sink l date zone hc hd hdate hzone
    rw [Write_formatted ⟨w, res⟩ rest q sink l date zone hc hd hdate hzone, formatted_eq]
    simp only [Outcome.ofWrite, hw]

/-- The recording sink accepts every write in full, so the theorem holds for a
logger made by `New` that writes to it. -/
theorem Write_count_is_length_written_witness :
    (∀ (s : List (List Byte)) (b : List Byte),
      (recorder.Write s b).1 = ((b.length : Int), none)) ∧
    (∀ (rest q : List Byte) (sink : List (List Byte)) (l : logEntry) (err : GoError),
      cleanup (New recorder).toRemove (123 :: rest) = .ok q →
      Decode q logEntry.zero = .ok (l, some err) →
      (HumanReadableLogger.mk recorder (New recorder).toRemove).Write (123 :: rest) sink =
        .returned
          ((bytes "ERROR: Could not read log entry as JSON (" ++ err ++ bytes "): " ++
            q).length : Int) none
          (recorder.Write sink
            (bytes "ERROR: Could not read log entry as JSON (" ++ err ++ bytes "): " ++
              q)).2) :=
  ⟨fun _ _ => rfl,
   (Write_count_is_length_written recorder (New recorder).toRemove (fun _ _ => rfl)).1⟩

/-- C17: only the first JSON value of a buffer is decoded.  For every buffer
made of an object `{ body }` and further bytes `tail`, when the object alone is
decoded without an error (after the cleanup of a logger made by `New`),
`Write` does on the whole buffer exactly what it does on the object alone: it
writes the same line, and the further bytes bring no diagnostic. -/
theorem Write_ignores_bytes_after_object {σ : Type} (output : Writer σ)
    (body tail q : List Byte) (sink : σ) (l : logEntry)
    (hc : cleanup (New output).toRemove (123 :: (body ++ [125])) = .ok q)
    (hd : Decode q logEntry.zero = .ok (l, none)) :
    (New output).Write (123 :: (body ++ [125]) ++ tail) sink =
      (New output).Write (123 :: (body ++ [125])) sink ∧
    (43 ∈ l.Time →
      ∃ date zone : List Byte,
        (New output).Write (123 :: (body ++ [125]) ++ tail) sink =
          .ofWrite (output.Write sink
            (date ++ bytes "+" ++ zone ++ bytes " [" ++
              (List.replicate (5 - RuneCountInString l.Level) 32 ++ l.Level) ++ bytes "] " ++
              l.File ++ bytes ":" ++ l.Line ++ bytes ": " ++ l.Message ++ bytes "\n"))) := by
  have hq : q = 123 :: (escapePattern.ReplaceAll body [] ++ [125]) := by
    rw [cleanup_New, ReplaceAll_object] at hc
    injection hc with hc
    exact hc.symm
  have hfull : cleanup (New output).toRemove (123 :: ((body ++ [125]) ++ tail)) =
      .ok (q ++ escapePattern.ReplaceAll tail []) := by
    rw [cleanup_New, hq]
    have he : (123 :: ((body ++ [125]) ++ tail) : List Byte) = 123 :: (body ++ 125 :: tail) := by
      simp
    rw [he, ReplaceAll_object_append]
  have hd2 : Decode (q ++ escapePattern.ReplaceAll tail []) logEntry.zero = .ok (l, none) := by
    rw [hq] at hd ⊢
    exact Decode_append _ _ _ _ hd
  have heq : (New output).Write (123 :: (body ++ [125]) ++ tail) sink =
      (New output).Write (123 :: (body ++ [125])) sink :=
    Write_eq_of_decoded (New output) ((body ++ [125]) ++ tail) (body ++ [125]) _ q sink l
      hfull hc hd2 hd
  refine ⟨heq, ?_⟩
  intro hplus
  obtain ⟨date, hdate⟩ := index_zero_Split l.Time 46
  obtain ⟨zone, hzone⟩ := index_one_Split_mem l.Time 43 hplus
  refine ⟨date, zone, ?_⟩
  rw [heq, Write_formatted (New output) (body ++ [125]) q sink l date zone hc hd hdate hzone,
    formatted_eq]
  rfl

/-- The example record followed by bytes that are no JSON: the line of the
record is written, as for the record alone. -/
theorem Write_ignores_bytes_after_object_witness :
    (123 :: (sampleBody ++ [125]) : List Byte) = sampleBuffer ∧
    (New recorder).Write (sampleBuffer ++ garbage) [] =
      .ofWrite (recorder.Write []
        (bytes "2023-05-01T10:20:30+02:00 [ INFO] main.go:42: hello\n")) ∧
    (New recorder).Write (123 :: (sampleBody ++ [125]) ++ garbage) [] =
      (New recorder).Write (123 :: (sampleBody ++ [125])) [] :=
  ⟨by decide, by decide,
   (Write_ignores_bytes_after_object recorder sampleBody garbage sampleBuffer []
      sampleRecord (by decide) (by decide)).1⟩

/-! ## The cleanup, match by match -/

theorem matchAt_nil (re : Regexp) : re.matchAt [] = none := by
  unfold Regexp.matchAt
  cases h : re.lit with
  | nil => simp [stripLit]
  | cons a pre => simp [stripLit]

theorem containsMatch_nil (re : Regexp) : containsMatch re [] = false := by
  simp [containsMatch, matchAt_nil]

theorem containsMatch_cons (re : Regexp) (c : Byte) (rest : List Byte) :
    containsMatch re (c :: rest) =
      ((re.matchAt (c :: rest)).isSome || containsMatch re rest) := by
  simp [containsMatch, List.tails]

theorem matchAt_none_of_containsMatch (re : Regexp) (c : Byte) (rest : List Byte)
    (h : containsMatch re (c :: rest) = false) :
    re.matchAt (c :: rest) = none ∧ containsMatch re rest = false := by
  rw [containsMatch_cons, Bool.or_eq_false_iff] at h
  refine ⟨?_, h.2⟩
  cases hm : re.matchAt (c :: rest) with
  | none => rfl
  | some r => rw [hm] at h; simp at h

theorem ReplaceAll_no_match (re : Regexp) (p : List Byte) (h : containsMatch re p = false) :
    re.ReplaceAll p [] = p := by
  induction p with
  | nil => exact ReplaceAll_nil _ _
  | cons c rest ih =>
    obtain ⟨h1, h2⟩ := matchAt_none_of_containsMatch re c rest h
    rw [ReplaceAll_cons_none _ _ c rest h1, ih h2]

theorem ReplaceAll_length_le (re : Regexp) :
    ∀ (n : Nat) (p : List Byte), p.length ≤ n → (re.ReplaceAll p []).length ≤ p.length := by
  intro n
  induction n with
  | zero =>
    intro p hp
    have : p = [] := List.length_eq_zero.mp (Nat.le_zero.mp hp)
    subst this
    simp [ReplaceAll_nil]
  | succ n ih =>
    intro p hp
    cases p with
    | nil => simp [ReplaceAll_nil]
    | cons c rest =>
      simp only [List.length_cons] at hp
      cases hr : re.matchAt (c :: rest) with
      | none =>
        rw [ReplaceAll_cons_none _ _ c rest hr]
        have := ih rest (by omega)
        simp only [List.length_cons]
        omega
      | some r =>
        have hl := matchAt_length _ _ r hr
        simp only [List.length_cons] at hl
        rw [ReplaceAll_cons_some _ _ c rest r hr, List.nil_append]
        have := ih r (by omega)
        simp only [List.length_cons]
        omega

theorem ReplaceAll_length_lt (re : Regexp) (p : List Byte) (h : containsMatch re p = true) :
    (re.ReplaceAll p []).length < p.length := by
  induction p with
  | nil =>
    rw [containsMatch_nil] at h
    simp at h
  | cons c rest ih =>
    cases hr : re.matchAt (c :: rest) with
    | none =>
      rw [containsMatch_cons, hr] at h
      simp only [Option.isSome_none, Bool.false_or] at h
      rw [ReplaceAll_cons_none _ _ c rest hr]
      have := ih h
      simp only [List.length_cons]
      omega
    | some r =>
      have hl := matchAt_length _ _ r hr
      rw [ReplaceAll_cons_some _ _ c rest r hr, List.nil_append]
      have := ReplaceAll_length_le re r.length r (Nat.le_refl _)
      omega

theorem stripLit_append_some (pre s r w : List Byte) (h : stripLit pre s = some r) :
    stripLit pre (s ++ w) = some (r ++ w) := by
  rw [stripLit_eq pre s r h, List.append_assoc, stripLit_append]

theorem dropWhile_append_cons (p : Byte → Bool) (r0 r2 w : List Byte) (c : Byte)
    (h : List.dropWhile p r0 = c :: r2) :
    List.dropWhile p (r0 ++ w) = c :: (r2 ++ w) := by
  induction r0 with
  | nil => simp at h
  | cons a r0 ih =>
    rw [List.cons_append, List.dropWhile_cons]
    rw [List.dropWhile_cons] at h
    by_cases ha : p a = true
    · rw [if_pos ha] at h ⊢
      exact ih h
    · rw [if_neg ha] at h ⊢
      injection h with h1 h2
      rw [h1, h2]

theorem matchAt_append (re : Regexp) (t r w : List Byte) (h : re.matchAt t = some r) :
    re.matchAt (t ++ w) = some (r ++ w) := by
  unfold Regexp.matchAt at h ⊢
  cases h0 : stripLit re.lit t with
  | none => rw [h0] at h; simp at h
  | some r0 =>
    rw [h0] at h
    rw [stripLit_append_some re.lit t r0 w h0]
    simp only at h ⊢
    cases h2 : List.dropWhile (fun c => decide (re.lo ≤ c ∧ c ≤ re.hi)) r0 with
    | nil => rw [h2] at h; simp at h
    | cons c r2 =>
      rw [h2] at h
      rw [dropWhile_append_cons _ r0 r2 w c h2]
      simp only at h ⊢
      by_cases hc : c = re.close
      · rw [if_pos hc] at h ⊢
        simp only [Option.some.injEq] at h
        rw [h]
      · rw [if_neg hc] at h
        simp at h

theorem matchAt_escape_shape (s r : List Byte) (h : escapePattern.matchAt s = some r) :
    ∃ d : List Byte, (∀ c ∈ d, 48 ≤ c ∧ c ≤ 57) ∧ s = [92, 120, 49, 98, 91] ++ d ++ 109 :: r := by
  unfold Regexp.matchAt at h
  cases h0 : stripLit escapePattern.lit s with
  | none => rw [h0] at h; simp at h
  | some r0 =>
    rw [h0] at h
    simp only at h
    have hs := stripLit_eq _ _ _ h0
    cases h2 : List.dropWhile (fun c => decide (escapePattern.lo ≤ c ∧ c ≤ escapePattern.hi)) r0 with
    | nil => rw [h2] at h; simp at h
    | cons c r2 =>
      rw [h2] at h
      simp only at h
      by_cases hc : c = escapePattern.close
      · rw [if_pos hc] at h
        simp only [Option.some.injEq] at h
        subst h
        refine ⟨List.takeWhile (fun c => decide (escapePattern.lo ≤ c ∧ c ≤ escapePattern.hi)) r0,
          ?_, ?_⟩
        · intro x hx
          have := List.mem_takeWhile_imp hx
          simpa [escapePattern] using this
        · have ht := List.takeWhile_append_dropWhile
            (fun c => decide (escapePattern.lo ≤ c ∧ c ≤ escapePattern.hi)) r0
          rw [h2, hc] at ht
          rw [hs, escapePattern_lit, List.append_assoc]
          congr 1
          exact ht.symm
      · rw [if_neg hc] at h
        simp at h

theorem matchAt_escape_before_backslash (s w : List Byte) (hs : s ≠ [])
    (h : escapePattern.matchAt s = none) :
    escapePattern.matchAt (s ++ 92 :: w) = none := by
  cases s with
  | nil => exact absurd rfl hs
  | cons c s =>
    by_cases hc : c = 92
    · subst hc
      have key : ∀ x : List Byte, escapePattern.matchAt (92 :: x) =
          Regexp.matchAt ⟨[120, 49, 98, 91], 48, 57, 109⟩ x := by
        intro x
        have hl : escapePattern.lit = 92 :: [120, 49, 98, 91] := by decide
        have h1 : escapePattern.lo = 48 := rfl
        have h2 : escapePattern.hi = 57 := rfl
        have h3 : escapePattern.close = 109 := rfl
        unfold Regexp.matchAt
        rw [hl, h1, h2, h3]
        simp [stripLit]
      rw [List.cons_append, key,
        matchAt_append_outside ⟨[120, 49, 98, 91], 48, 57, 109⟩ s w 92 (by decide) (by decide)
          (by decide), ← key, h]
      rfl
    · exact matchAt_escape_ne c _ hc

theorem ReplaceAll_first_match (u d v : List Byte) (hu : containsMatch escapePattern u = false)
    (hd : ∀ c ∈ d, 48 ≤ c ∧ c ≤ 57) :
    escapePattern.ReplaceAll (u ++ [92, 120, 49, 98, 91] ++ d ++ 109 :: v) [] =
      u ++ escapePattern.ReplaceAll v [] := by
  induction u with
  | nil =>
    have hm := matchAt_escape_spelled d v hd
    simp only [List.nil_append]
    have he : ([92, 120, 49, 98, 91] ++ d ++ 109 :: v : List Byte) =
        92 :: ([120, 49, 98, 91] ++ d ++ 109 :: v) := by simp
    rw [he] at hm ⊢
    rw [ReplaceAll_cons_some _ _ _ _ v hm]
    simp
  | cons c u ih =>
    obtain ⟨h1, h2⟩ := matchAt_none_of_containsMatch _ c u hu
    have hm := matchAt_escape_before_backslash (c :: u) ([120, 49, 98, 91] ++ d ++ 109 :: v)
      (by simp) h1
    have he : (c :: u ++ [92, 120, 49, 98, 91] ++ d ++ 109 :: v : List Byte) =
        c :: (u ++ [92, 120, 49, 98, 91] ++ d ++ 109 :: v) := by simp
    have he2 : (c :: u ++ 92 :: ([120, 49, 98, 91] ++ d ++ 109 :: v) : List Byte) =
        c :: (u ++ [92, 120, 49, 98, 91] ++ d ++ 109 :: v) := by simp
    rw [he2] at hm
    rw [he, ReplaceAll_cons_none _ _ c _ hm, ih h2]
    simp

theorem first_match_exists (p : List Byte) (h : containsMatch escapePattern p = true) :
    ∃ u d v : List Byte, p = u ++ [92, 120, 49, 98, 91] ++ d ++ 109 :: v ∧
      (∀ c ∈ d, 48 ≤ c ∧ c ≤ 57) ∧ containsMatch escapePattern u = false := by
  induction p with
  | nil => rw [containsMatch_nil] at h; simp at h
  | cons c rest ih =>
    cases hm : escapePattern.matchAt (c :: rest) with
    | some r =>
      obtain ⟨d, hd, hs⟩ := matchAt_escape_shape _ _ hm
      exact ⟨[], d, r, by simpa using hs, hd, containsMatch_nil _⟩
    | none =>
      rw [containsMatch_cons, hm] at h
      simp only [Option.isSome_none, Bool.false_or] at h
      obtain ⟨u, d, v, hp, hd, hu⟩ := ih h
      refine ⟨c :: u, d, v, by simp [hp], hd, ?_⟩
      rw [containsMatch_cons, hu, Bool.or_false]
      cases hcu : escapePattern.matchAt (c :: u) with
      | none => rfl
      | some r =>
        exfalso
        have := matchAt_append _ _ _ ([92, 120, 49, 98, 91] ++ d ++ 109 :: v) hcu
        have he : (c :: u ++ ([92, 120, 49, 98, 91] ++ d ++ 109 :: v) : List Byte) =
            c :: rest := by simp [hp]
        rw [he, hm] at this
        simp at this

theorem weave_cons_cons (a : List Byte) (as ms : List (List Byte)) :
    ∃ w, weave (a :: as) ms = a ++ w := by
  cases ms with
  | nil => exact ⟨[], by simp [weave]⟩
  | cons m ms => exact ⟨m ++ weave as ms, by simp [weave]⟩

theorem weave_cons_head (c : Byte) (a : List Byte) (as ms : List (List Byte)) :
    weave ((c :: a) :: as) ms = c :: weave (a :: as) ms := by
  cases ms with
  | nil => simp [weave]
  | cons m ms => simp [weave]

theorem ReplaceAll_pieces :
    ∀ (n : Nat) (p : List Byte), p.length ≤ n →
      ∃ pieces removed : List (List Byte),
        pieces.length = removed.length + 1 ∧ p = weave pieces removed ∧
        (∀ m ∈ removed, escapePattern.matchAt m = some []) ∧
        (∀ a ∈ pieces, containsMatch escapePattern a = false) ∧
        escapePattern.ReplaceAll p [] = pieces.flatten := by
  intro n
  induction n with
  | zero =>
    intro p hp
    have : p = [] := List.length_eq_zero.mp (Nat.le_zero.mp hp)
    subst this
    exact ⟨[[]], [], rfl, rfl, by simp, by simp [containsMatch_nil], by simp [ReplaceAll_nil]⟩
  | succ n ih =>
    intro p hp
    cases p with
    | nil =>
      exact ⟨[[]], [], rfl, rfl, by simp, by simp [containsMatch_nil], by simp [ReplaceAll_nil]⟩
    | cons c rest =>
      simp only [List.length_cons] at hp
      cases hm : escapePattern.matchAt (c :: rest) with
      | none =>
        obtain ⟨pieces, removed, hlen, hw, hrem, hpc, hq⟩ := ih rest (by omega)
        cases pieces with
        | nil => simp at hlen
        | cons a as =>
          refine ⟨(c :: a) :: as, removed, by simpa using hlen, ?_, hrem, ?_, ?_⟩
          · rw [weave_cons_head, ← hw]
          · intro x hx
            rcases List.mem_cons.mp hx with e | e
            · subst e
              rw [containsMatch_cons, hpc a (by simp), Bool.or_false]
              cases hca : escapePattern.matchAt (c :: a) with
              | none => rfl
              | some r =>
                exfalso
                obtain ⟨w, hw2⟩ := weave_cons_cons a as removed
                have := matchAt_append _ _ _ w hca
                rw [List.cons_append, ← hw2, ← hw, hm] at this
                simp at this
            · exact hpc x (by simp [e])
          · rw [ReplaceAll_cons_none _ _ c rest hm, hq]
            simp
      | some r =>
        have hl := matchAt_length _ _ r hm
        simp only [List.length_cons] at hl
        obtain ⟨pieces, removed, hlen, hw, hrem, hpc, hq⟩ := ih r (by omega)
        obtain ⟨d, hd, hs⟩ := matchAt_escape_shape _ _ hm
        refine ⟨[] :: pieces, ([92, 120, 49, 98, 91] ++ d ++ [109]) :: removed,
          by simp [hlen], ?_, ?_, ?_, ?_⟩
        · rw [hs, weave, ← hw]
          simp
        · intro m hmem
          rcases List.mem_cons.mp hmem with e | e
          · subst e
            exact matchAt_escape_spelled d [] hd
          · exact hrem m e
        · intro x hx
          rcases List.mem_cons.mp hx with e | e
          · subst e
            exact containsMatch_nil _
          · exact hpc x e
        · rw [ReplaceAll_cons_some _ _ c rest r hm, hq]
          simp

theorem partialMatch_of_lit_start (s t : List Byte) (hs : s ≠ [])
    (h : s ++ t = [92, 120, 49, 98, 91]) : escapePattern.partialMatch s = true := by
  unfold Regexp.partialMatch
  have hne : s.isEmpty = false := by cases s with
    | nil => exact absurd rfl hs
    | cons _ _ => rfl
  rw [hne]
  simp only [Bool.not_false, Bool.true_and, List.any_eq_true]
  refine ⟨t, ?_, ?_⟩
  · rw [List.mem_tails, escapePattern_lit, ← h]
    exact List.suffix_append _ _
  · rw [h]
    have := matchAt_escape_spelled [] [] (by simp)
    have hc : escapePattern.close = 109 := rfl
    rw [hc]
    simpa using this

theorem partialMatch_of_lit_digits (d : List Byte) (hd : ∀ c ∈ d, 48 ≤ c ∧ c ≤ 57) :
    escapePattern.partialMatch ([92, 120, 49, 98, 91] ++ d) = true := by
  unfold Regexp.partialMatch
  simp only [List.isEmpty, List.cons_append, Bool.not_false, Bool.true_and, List.any_eq_true]
  refine ⟨[], by simp, ?_⟩
  have := matchAt_escape_spelled d [] hd
  have hc : escapePattern.close = 109 := rfl
  rw [hc]
  simpa using this

theorem matchAt_or_partial (s x r : List Byte) (hs : s ≠ [])
    (h : escapePattern.matchAt (s ++ x) = some r) :
    (escapePattern.matchAt s).isSome = true ∨ escapePattern.partialMatch s = true := by
  obtain ⟨d, hd, he⟩ := matchAt_escape_shape _ _ h
  have he2 : s ++ x = ([92, 120, 49, 98, 91] ++ d ++ [109]) ++ r := by simp [he]
  rcases List.append_eq_append_iff.mp he2 with ⟨a, ha, _⟩ | ⟨c, hc, _⟩
  · -- the match is `s ++ a`
    cases a with
    | nil =>
      left
      have : s = [92, 120, 49, 98, 91] ++ d ++ [109] := by simpa using ha.symm
      rw [this, matchAt_escape_spelled d [] hd]
      rfl
    | cons b a =>
      right
      rcases List.append_eq_append_iff.mp ha with ⟨a2, h1, h2⟩ | ⟨c2, h1, h2⟩
      · have ha2 : a2 = [] := by
          cases a2 with
          | nil => rfl
          | cons y a2 =>
            have := congrArg List.length h2
            simp at this
        rw [h1, ha2, List.append_nil]
        exact partialMatch_of_lit_digits d hd
      · rcases List.append_eq_append_iff.mp h1 with ⟨a3, h3, h4⟩ | ⟨c3, h3, h4⟩
        · rw [h3]
          exact partialMatch_of_lit_digits a3 (fun y hy => hd y (by rw [h4]; simp [hy]))
        · exact partialMatch_of_lit_start s c3 hs h3.symm
  · left
    rw [hc, matchAt_append _ _ _ c (matchAt_escape_spelled d [] hd)]
    rfl

theorem matchAt_single (c : Byte) : escapePattern.matchAt [c] = none := by
  cases h : escapePattern.matchAt [c] with
  | none => rfl
  | some r =>
    obtain ⟨d, _, he⟩ := matchAt_escape_shape _ _ h
    have := congrArg List.length he
    simp at this

theorem matchAt_through_cleanup (rest : List Byte) :
    ∀ s : List Byte, s ≠ [] → escapePattern.matchAt s = none →
      (∀ X t : List Byte, rest = X ++ t → (escapePattern.matchAt t).isSome = true →
        ∀ x : List Byte, x <:+ s ++ X → escapePattern.partialMatch x = false) →
      (escapePattern.matchAt (s ++ escapePattern.ReplaceAll rest [])).isSome = true →
      (escapePattern.matchAt (s ++ rest)).isSome = true := by
  induction rest with
  | nil =>
    intro s _ _ _ h
    rw [ReplaceAll_nil] at h
    exact h
  | cons c rest ih =>
    intro s hs hnone hfree h
    cases hm : escapePattern.matchAt (c :: rest) with
    | some r =>
      exfalso
      have hp := hfree [] (c :: rest) rfl (by rw [hm]; rfl) s (by simp)
      cases hq : escapePattern.matchAt (s ++ escapePattern.ReplaceAll (c :: rest) []) with
      | none => rw [hq] at h; simp at h
      | some r2 =>
        rcases matchAt_or_partial s _ r2 hs hq with h1 | h1
        · rw [hnone] at h1; simp at h1
        · rw [hp] at h1; simp at h1
    | none =>
      rw [ReplaceAll_cons_none _ _ c rest hm] at h
      have e1 : s ++ c :: escapePattern.ReplaceAll rest [] =
          (s ++ [c]) ++ escapePattern.ReplaceAll rest [] := by simp
      have e2 : s ++ c :: rest = (s ++ [c]) ++ rest := by simp
      rw [e1] at h
      rw [e2]
      cases hsc : escapePattern.matchAt (s ++ [c]) with
      | some r0 =>
        rw [matchAt_append _ _ _ rest hsc]
        rfl
      | none =>
        refine ih (s ++ [c]) (by simp) hsc ?_ h
        intro X t hXt ht x hx
        refine hfree (c :: X) t (by rw [hXt]; rfl) ht x ?_
        simpa using hx

theorem ReplaceAll_no_match_left :
    ∀ (n : Nat) (p : List Byte), p.length ≤ n →
      (∀ X t : List Byte, p = X ++ t → (escapePattern.matchAt t).isSome = true →
        ∀ x : List Byte, x <:+ X → escapePattern.partialMatch x = false) →
      containsMatch escapePattern (escapePattern.ReplaceAll p []) = false := by
  intro n
  induction n with
  | zero =>
    intro p hp _
    have : p = [] := List.length_eq_zero.mp (Nat.le_zero.mp hp)
    subst this
    rw [ReplaceAll_nil, containsMatch_nil]
  | succ n ih =>
    intro p hp hfree
    cases p with
    | nil => rw [ReplaceAll_nil, containsMatch_nil]
    | cons c rest =>
      simp only [List.length_cons] at hp
      cases hm : escapePattern.matchAt (c :: rest) with
      | some r =>
        have hl := matchAt_length _ _ r hm
        simp only [List.length_cons] at hl
        obtain ⟨m, hmr⟩ := matchAt_suffix _ _ r hm
        rw [ReplaceAll_cons_some _ _ c rest r hm, List.nil_append]
        refine ih r (by omega) ?_
        intro X t hXt ht x hx
        refine hfree (m ++ X) t (by rw [← hmr, hXt, List.append_assoc]) ht x ?_
        exact hx.trans (List.suffix_append _ _)
      | none =>
        rw [ReplaceAll_cons_none _ _ c rest hm, containsMatch_cons]
        have hrest : containsMatch escapePattern (escapePattern.ReplaceAll rest []) = false := by
          refine ih rest (by omega) ?_
          intro X t hXt ht x hx
          refine hfree (c :: X) t (by rw [hXt]; rfl) ht x ?_
          exact hx.trans (List.suffix_cons _ _)
        rw [hrest, Bool.or_false]
        cases hq : escapePattern.matchAt (c :: escapePattern.ReplaceAll rest []) with
        | none => rfl
        | some r2 =>
          exfalso
          have := matchAt_through_cleanup rest [c] (by simp) (matchAt_single c)
            (fun X t hXt ht x hx => hfree (c :: X) t (by rw [hXt]; rfl) ht x (by simpa using hx))
            (by rw [List.singleton_append, hq]; rfl)
          rw [List.singleton_append, hm] at this
          simp at this

theorem partialMatch_shape (s : List Byte) (h : escapePattern.partialMatch s = true) :
    (∃ s1 : List Byte, s = 92 :: s1 ∧ 92 ∉ s1) ∧ escapePattern.matchAt s = none := by
  unfold Regexp.partialMatch at h
  simp only [Bool.and_eq_true, Bool.not_eq_true', List.any_eq_true, beq_iff_eq] at h
  obtain ⟨hne, t, _, ht⟩ := h
  constructor
  · obtain ⟨d, hd, he⟩ := matchAt_escape_shape _ _ ht
    have hc : escapePattern.close = 109 := rfl
    rw [hc] at he
    have he2 : s ++ t = [92, 120, 49, 98, 91] ++ d := by
      have : (s ++ t) ++ [109] = ([92, 120, 49, 98, 91] ++ d) ++ [109] := by simpa using he
      exact List.append_cancel_right this
    cases s with
    | nil => simp at hne
    | cons c s1 =>
      have h3 : c :: (s1 ++ t) = 92 :: ([120, 49, 98, 91] ++ d) := by simpa using he2
      injection h3 with h4 h5
      refine ⟨s1, by rw [h4], ?_⟩
      intro hmem
      have : (92 : Byte) ∈ [120, 49, 98, 91] ++ d := by
        rw [← h5]
        exact List.mem_append_left _ hmem
      rcases List.mem_append.mp this with e | e
      · revert e; decide
      · have h57 := (hd 92 e).2
        exact absurd h57 (by decide)
  · cases hm : escapePattern.matchAt s with
    | none => rfl
    | some r0 =>
      exfalso
      have := matchAt_append _ _ _ (t ++ [escapePattern.close]) hm
      rw [← List.append_assoc, ht] at this
      simp at this

theorem ReplaceAll_append_backslash (w : List Byte) :
    ∀ (n : Nat) (x : List Byte), x.length ≤ n →
      escapePattern.ReplaceAll (x ++ 92 :: w) [] =
        escapePattern.ReplaceAll x [] ++ escapePattern.ReplaceAll (92 :: w) [] := by
  intro n
  induction n with
  | zero =>
    intro x hx
    have : x = [] := List.length_eq_zero.mp (Nat.le_zero.mp hx)
    subst this
    simp [ReplaceAll_nil]
  | succ n ih =>
    intro x hx
    cases x with
    | nil => simp [ReplaceAll_nil]
    | cons c x =>
      simp only [List.length_cons] at hx
      cases hm : escapePattern.matchAt (c :: x) with
      | none =>
        have h2 := matchAt_escape_before_backslash (c :: x) w (by simp) hm
        rw [List.cons_append] at h2 ⊢
        rw [ReplaceAll_cons_none _ _ c _ h2, ReplaceAll_cons_none _ _ c x hm, ih x (by omega)]
        rfl
      | some r =>
        have hl := matchAt_length _ _ r hm
        simp only [List.length_cons] at hl
        have h2 := matchAt_append _ _ _ (92 :: w) hm
        rw [List.cons_append] at h2 ⊢
        rw [ReplaceAll_cons_some _ _ c _ _ h2, ReplaceAll_cons_some _ _ c x r hm, ih r (by omega)]
        simp

theorem containsMatch_append_of_matchAt (a b : List Byte)
    (h : (escapePattern.matchAt b).isSome = true) : containsMatch escapePattern (a ++ b) = true := by
  unfold containsMatch
  rw [List.any_eq_true]
  exact ⟨b, (List.mem_tails b (a ++ b)).mpr (List.suffix_append a b), h⟩

theorem ReplaceAll_joins (x0 s m y : List Byte) (hs : escapePattern.partialMatch s = true)
    (hm : escapePattern.matchAt m = some []) :
    escapePattern.ReplaceAll (x0 ++ s ++ m ++ y) [] =
      escapePattern.ReplaceAll x0 [] ++ s ++ escapePattern.ReplaceAll y [] := by
  obtain ⟨⟨s1, hs1, h92⟩, hnone⟩ := partialMatch_shape s hs
  obtain ⟨d, hd, hshape⟩ := matchAt_escape_shape m [] hm
  subst hs1
  have e1 : x0 ++ 92 :: s1 ++ m ++ y = x0 ++ 92 :: (s1 ++ m ++ y) := by simp
  rw [e1, ReplaceAll_append_backslash _ x0.length x0 (Nat.le_refl _)]
  have e2 : (92 :: (s1 ++ m ++ y) : List Byte) =
      (92 :: s1) ++ 92 :: ([120, 49, 98, 91] ++ d ++ [109] ++ y) := by
    rw [hshape]; simp
  have h2 := matchAt_escape_before_backslash (92 :: s1) ([120, 49, 98, 91] ++ d ++ [109] ++ y)
    (by simp) hnone
  rw [← e2] at h2
  rw [ReplaceAll_cons_none _ _ 92 _ h2]
  have e3 : s1 ++ m ++ y = s1 ++ [92, 120, 49, 98, 91] ++ d ++ 109 :: y := by
    rw [hshape]; simp
  rw [e3, ReplaceAll_first_match s1 d y (containsMatch_false_of_no_backslash s1 h92) hd]
  simp

theorem matchAt_joined (rest : List Byte) :
    ∀ s : List Byte, s ≠ [] → escapePattern.matchAt s = none →
      (escapePattern.matchAt (s ++ escapePattern.ReplaceAll rest [])).isSome = true →
      escapePattern.matchAt (s ++ rest) = none →
      ∃ x m y : List Byte, rest = x ++ m ++ y ∧ escapePattern.matchAt m = some [] ∧
        escapePattern.partialMatch (s ++ x) = true ∧
        (escapePattern.matchAt ((s ++ x) ++ escapePattern.ReplaceAll y [])).isSome = true := by
  induction rest with
  | nil =>
    intro s _ _ h hn
    rw [ReplaceAll_nil] at h
    rw [hn] at h
    simp at h
  | cons c rest ih =>
    intro s hs hnone h hn
    cases hm : escapePattern.matchAt (c :: rest) with
    | some r =>
      obtain ⟨d, hd, hshape⟩ := matchAt_escape_shape _ _ hm
      rw [ReplaceAll_cons_some _ _ c rest r hm, List.nil_append] at h
      refine ⟨[], [92, 120, 49, 98, 91] ++ d ++ [109], r, by rw [hshape]; simp,
        matchAt_escape_spelled d [] hd, ?_, by simpa using h⟩
      cases hq : escapePattern.matchAt (s ++ escapePattern.ReplaceAll r []) with
      | none => rw [hq] at h; simp at h
      | some r2 =>
        rcases matchAt_or_partial s _ r2 hs hq with h1 | h1
        · rw [hnone] at h1; simp at h1
        · simpa using h1
    | none =>
      rw [ReplaceAll_cons_none _ _ c rest hm] at h
      have e1 : s ++ c :: escapePattern.ReplaceAll rest [] =
          (s ++ [c]) ++ escapePattern.ReplaceAll rest [] := by simp
      have e2 : s ++ c :: rest = (s ++ [c]) ++ rest := by simp
      rw [e1] at h
      rw [e2] at hn
      cases hsc : escapePattern.matchAt (s ++ [c]) with
      | some r0 =>
        rw [matchAt_append _ _ _ rest hsc] at hn
        simp at hn
      | none =>
        obtain ⟨x, m, y, hr, hmm, hp, hj⟩ := ih (s ++ [c]) (by simp) hsc h hn
        refine ⟨c :: x, m, y, by rw [hr]; simp, hmm, by simpa using hp, by simpa using hj⟩

theorem remaining_match_joined :
    ∀ (n : Nat) (p : List Byte), p.length ≤ n →
      containsMatch escapePattern (escapePattern.ReplaceAll p []) = true →
      ∃ x m y s : List Byte, p = x ++ m ++ y ∧ escapePattern.matchAt m = some [] ∧
        s <:+ x ∧ escapePattern.partialMatch s = true ∧
        (escapePattern.matchAt (s ++ escapePattern.ReplaceAll y [])).isSome = true := by
  intro n
  induction n with
  | zero =>
    intro p hp h
    have : p = [] := List.length_eq_zero.mp (Nat.le_zero.mp hp)
    subst this
    rw [ReplaceAll_nil, containsMatch_nil] at h
    simp at h
  | succ n ih =>
    intro p hp h
    cases p with
    | nil =>
      rw [ReplaceAll_nil, containsMatch_nil] at h
      simp at h
    | cons c rest =>
      simp only [List.length_cons] at hp
      cases hm : escapePattern.matchAt (c :: rest) with
      | some r =>
        have hl := matchAt_length _ _ r hm
        simp only [List.length_cons] at hl
        obtain ⟨m0, hmr⟩ := matchAt_suffix _ _ r hm
        rw [ReplaceAll_cons_some _ _ c rest r hm, List.nil_append] at h
        obtain ⟨x, m, y, s, hr, hmm, hsx, hp2, hj⟩ := ih r (by omega) h
        exact ⟨m0 ++ x, m, y, s, by rw [← hmr, hr]; simp, hmm,
          hsx.trans (List.suffix_append _ _), hp2, hj⟩
      | none =>
        rw [ReplaceAll_cons_none _ _ c rest hm, containsMatch_cons] at h
        cases hrest : containsMatch escapePattern (escapePattern.ReplaceAll rest []) with
        | true =>
          obtain ⟨x, m, y, s, hr, hmm, hsx, hp2, hj⟩ := ih rest (by omega) hrest
          exact ⟨c :: x, m, y, s, by rw [hr]; simp, hmm,
            hsx.trans (List.suffix_cons _ _), hp2, hj⟩
        | false =>
          rw [hrest, Bool.or_false] at h
          obtain ⟨x, m, y, hr, hmm, hp2, hj⟩ := matchAt_joined rest [c] (by simp)
            (matchAt_single c) (by simpa using h) (by simpa using hm)
          exact ⟨c :: x, m, y, c :: x, by rw [hr]; simp, hmm, List.suffix_refl _,
            by simpa using hp2, by simpa using hj⟩

theorem remaining_match_iff (p : List Byte) :
    containsMatch escapePattern (escapePattern.ReplaceAll p []) = true ↔
      ∃ x m y s : List Byte, p = x ++ m ++ y ∧ escapePattern.matchAt m = some [] ∧
        s <:+ x ∧ escapePattern.partialMatch s = true ∧
        (escapePattern.matchAt (s ++ escapePattern.ReplaceAll y [])).isSome = true := by
  constructor
  · exact remaining_match_joined p.length p (Nat.le_refl _)
  · rintro ⟨x, m, y, s, hp, hm, ⟨x0, hx0⟩, hs, hj⟩
    rw [hp, ← hx0, ReplaceAll_joins x0 s m y hs hm, List.append_assoc]
    exact containsMatch_append_of_matchAt _ _ hj

/-! ## The claims on the cleanup and on the state -/

/-- C5, amended: the pattern `New` compiles matches the escaped spelling of the
sequence: it matches at the head of a text exactly when the text begins with
`\x1b[` (a backslash, `x`, `1`, `b`, `[`), zero or more digits, `m`.  For every
buffer, the cleanup of a logger made by `New` removes the first such text (the
portion `u` before it holds none) and goes on behind it; every buffer that
holds such a text is of that shape; and a buffer that holds none, as one
without a backslash, raw ESC bytes included, is left as it is. -/
theorem cleanup_removes_spelled_escape {σ : Type} (output : Writer σ) :
    (New output).toRemove = [some escapePattern] ∧
    (∀ s : List Byte, (escapePattern.matchAt s).isSome = true ↔
      ∃ d v : List Byte, (∀ c ∈ d, 48 ≤ c ∧ c ≤ 57) ∧
        s = bytes "\\x1b[" ++ d ++ bytes "m" ++ v) ∧
    (∀ u d v : List Byte, containsMatch escapePattern u = false →
      (∀ c ∈ d, 48 ≤ c ∧ c ≤ 57) →
      cleanup (New output).toRemove (u ++ bytes "\\x1b[" ++ d ++ bytes "m" ++ v) =
        (cleanup (New output).toRemove v).map (u ++ ·)) ∧
    (∀ p : List Byte, containsMatch escapePattern p = true →
      ∃ u d v : List Byte, p = u ++ bytes "\\x1b[" ++ d ++ bytes "m" ++ v ∧
        (∀ c ∈ d, 48 ≤ c ∧ c ≤ 57) ∧ containsMatch escapePattern u = false) ∧
    (∀ p : List Byte, containsMatch escapePattern p = false →
      cleanup (New output).toRemove p = .ok p) ∧
    (∀ p : List Byte, 92 ∉ p → containsMatch escapePattern p = false) := by
  have h1 : bytes "\\x1b[" = [92, 120, 49, 98, 91] := by decide
  have h2 : bytes "m" = [109] := by decide
  have he : ∀ u d v : List Byte, u ++ [92, 120, 49, 98, 91] ++ d ++ [109] ++ v =
      u ++ [92, 120, 49, 98, 91] ++ d ++ 109 :: v := by
    intro u d v
    simp
  refine ⟨New_toRemove output, ?_, ?_, ?_, ?_, ?_⟩
  · intro s
    rw [h1, h2]
    constructor
    · intro hs
      cases hm : escapePattern.matchAt s with
      | none => rw [hm] at hs; simp at hs
      | some r =>
        obtain ⟨d, hd, hshape⟩ := matchAt_escape_shape s r hm
        exact ⟨d, r, hd, by rw [hshape]; simp⟩
    · rintro ⟨d, v, hd, hs⟩
      have := he [] d v
      simp only [List.nil_append] at this
      rw [hs, this, matchAt_escape_spelled d v hd]
      rfl
  · intro u d v hu hd
    rw [cleanup_New, cleanup_New, h1, h2, he, ReplaceAll_first_match u d v hu hd]
    rfl
  · intro p hp
    obtain ⟨u, d, v, hpe, hd, hu⟩ := first_match_exists p hp
    exact ⟨u, d, v, by rw [h1, h2, he, hpe], hd, hu⟩
  · intro p hp
    rw [cleanup_New, ReplaceAll_no_match _ p hp]
  · intro p hp
    exact containsMatch_false_of_no_backslash p hp

/-- The record with two escaped quotes before the spelled sequence `\x1b[31m`:
the sequence is removed and the cleanup goes on behind it; and the buffer with
the raw sequence is left as it is. -/
theorem cleanup_removes_spelled_escape_witness :
    cleanup (New recorder).toRemove escapedSpelled =
      .ok (bytes "\x7b\"message\":\"say \\\"hi\\\" red\"\x7d") ∧
    cleanup (New recorder).toRemove
        (bytes "\x7b\"message\":\"say \\\"hi\\\" " ++ bytes "\\x1b[" ++ bytes "31" ++
          bytes "m" ++ bytes "red\\x1b[0m\"\x7d") =
      (cleanup (New recorder).toRemove (bytes "red\\x1b[0m\"\x7d")).map
        (bytes "\x7b\"message\":\"say \\\"hi\\\" " ++ ·) ∧
    cleanup (New recorder).toRemove escBuffer = .ok escBuffer :=
  ⟨by decide,
   (cleanup_removes_spelled_escape recorder).2.2.1 (bytes "\x7b\"message\":\"say \\\"hi\\\" ")
      (bytes "31") (bytes "red\\x1b[0m\"\x7d") (by decide) (by decide),
   (cleanup_removes_spelled_escape recorder).2.2.2.2.1 escBuffer (by decide)⟩

/-- C7, amended: on decode failure the text echoed at the end of the
diagnostic is the buffer after the cleanup, which the loop assigns to `p`: for
a logger made by `New` it is `ReplaceAll` of the buffer passed to `Write`.  It is
the buffer passed to `Write` exactly when the cleanup pattern matches nowhere
in that buffer. -/
theorem Write_echoes_cleaned_buffer {σ : Type} (output : Writer σ) (rest : List Byte)
    (sink : σ) (l : logEntry) (err : GoError)
    (hd : Decode (escapePattern.ReplaceAll (123 :: rest) []) logEntry.zero =
      .ok (l, some err)) :
    (New output).Write (123 :: rest) sink =
      .ofWrite (output.Write sink
        (bytes "ERROR: Could not read log entry as JSON (" ++ err ++ bytes "): " ++
          escapePattern.ReplaceAll (123 :: rest) [])) ∧
    (escapePattern.ReplaceAll (123 :: rest) [] = 123 :: rest ↔
      containsMatch escapePattern (123 :: rest) = false) := by
  constructor
  · exact Write_diagnostic (New output) rest _ sink l err (cleanup_New output _) hd
  · constructor
    · intro he
      cases hc : containsMatch escapePattern (123 :: rest) with
      | false => rfl
      | true =>
        exfalso
        have hlt := ReplaceAll_length_lt escapePattern (123 :: rest) hc
        rw [he] at hlt
        exact Nat.lt_irrefl _ hlt
    · exact ReplaceAll_no_match escapePattern (123 :: rest)

/-- The buffer `{"message":"a\"b" oops}` holds a backslash and no match of the
pattern: it fails to decode, and it is echoed as it was passed to `Write`. -/
theorem Write_echoes_cleaned_buffer_witness :
    (New recorder).Write escapedNotJson [] =
      .returned 116 none
        [bytes ("ERROR: Could not read log entry as JSON (invalid character 'o' after " ++
          "object key:value pair): \x7b\"message\":\"a\\\"b\" oops\x7d")] ∧
    containsMatch escapePattern (123 :: escapedNotJson.tail) = false ∧
    ((New recorder).Write (123 :: escapedNotJson.tail) [] =
      .ofWrite (recorder.Write []
        (bytes "ERROR: Could not read log entry as JSON (" ++
          bytes "invalid character 'o' after object key:value pair" ++
          bytes "): " ++ escapePattern.ReplaceAll (123 :: escapedNotJson.tail) [])) ∧
    (escapePattern.ReplaceAll (123 :: escapedNotJson.tail) [] = 123 :: escapedNotJson.tail ↔
      containsMatch escapePattern (123 :: escapedNotJson.tail) = false)) :=
  ⟨by decide, by decide,
   Write_echoes_cleaned_buffer recorder escapedNotJson.tail [] logEntry.zero
    (bytes "invalid character 'o' after object key:value pair")
    (by decide)⟩

/-- C12, amended: the cleanup of a logger made by `New` is one pass from the
left.  Every buffer is made of pieces with the removed texts between them:
each removed text is one match of the pattern, no match lies within a piece,
and the cleaned buffer is the pieces joined.  The cleaned buffer holds a match
exactly when some match `m` of the buffer stands right behind the beginning `s`
of a match that is not complete (`\`, `\x`, `\x1`, `\x1b`, `\x1b[` and
digits) and `s` with what the cleanup leaves of the text behind `m` begins with
a match.  So for every buffer in which no match stands right behind such a
beginning, the cleaned buffer holds no match. -/
theorem cleanup_single_pass {σ : Type} (output : Writer σ) (p : List Byte) :
    (∃ pieces removed : List (List Byte),
      pieces.length = removed.length + 1 ∧ p = weave pieces removed ∧
      (∀ m ∈ removed, escapePattern.matchAt m = some []) ∧
      (∀ a ∈ pieces, containsMatch escapePattern a = false) ∧
      cleanup (New output).toRemove p = .ok pieces.flatten) ∧
    (∃ q : List Byte, cleanup (New output).toRemove p = .ok q ∧
      (containsMatch escapePattern q = true ↔
        ∃ x m y y1 s : List Byte, p = x ++ m ++ y ∧ escapePattern.matchAt m = some [] ∧
          s <:+ x ∧ escapePattern.partialMatch s = true ∧
          cleanup (New output).toRemove y = .ok y1 ∧
          (escapePattern.matchAt (s ++ y1)).isSome = true)) ∧
    ((∀ i ≤ p.length, (escapePattern.matchAt (p.drop i)).isSome = true →
        ∀ x ∈ (p.take i).tails, escapePattern.partialMatch x = false) →
      ∃ q : List Byte, cleanup (New output).toRemove p = .ok q ∧
        containsMatch escapePattern q = false) := by
  refine ⟨?_, ?_, ?_⟩
  · obtain ⟨pieces, removed, h1, h2, h3, h4, h5⟩ := ReplaceAll_pieces p.length p (Nat.le_refl _)
    exact ⟨pieces, removed, h1, h2, h3, h4, by rw [cleanup_New, h5]⟩
  · refine ⟨escapePattern.ReplaceAll p [], cleanup_New output p, ?_⟩
    rw [remaining_match_iff]
    constructor
    · rintro ⟨x, m, y, s, hp, hm, hs, hpm, hj⟩
      exact ⟨x, m, y, _, s, hp, hm, hs, hpm, cleanup_New output y, hj⟩
    · rintro ⟨x, m, y, y1, s, hp, hm, hs, hpm, hy, hj⟩
      rw [cleanup_New] at hy
      injection hy with hy
      subst hy
      exact ⟨x, m, y, s, hp, hm, hs, hpm, hj⟩
  · intro hfree
    refine ⟨escapePattern.ReplaceAll p [], cleanup_New output p, ?_⟩
    refine ReplaceAll_no_match_left p.length p (Nat.le_refl _) ?_
    intro X t hXt ht x hx
    have hi : X.length ≤ p.length := by rw [hXt]; simp
    have h := hfree X.length hi
    rw [hXt, List.drop_left, List.take_left] at h
    exact h ht x ((List.mem_tails x X).mpr hx)

/-- The record with two escaped quotes and two spelled sequences: no match
stands behind an unfinished beginning of a match, and the cleaned buffer, which
is the three pieces around the two sequences joined, holds no match. -/
theorem cleanup_single_pass_witness :
    escapedSpelled =
      weave [bytes "\x7b\"message\":\"say \\\"hi\\\" ", bytes "red", bytes "\"\x7d"]
        [bytes "\\x1b[31m", bytes "\\x1b[0m"] ∧
    cleanup (New recorder).toRemove escapedSpelled =
      .ok (bytes "\x7b\"message\":\"say \\\"hi\\\" red\"\x7d") ∧
    ∃ q : List Byte, cleanup (New recorder).toRemove escapedSpelled = .ok q ∧
      containsMatch escapePattern q = false :=
  ⟨by decide, by decide, (cleanup_single_pass recorder escapedSpelled).2.2 (by decide)⟩

theorem call_recorder (h : HumanReadableLogger (List (List Byte))) (ho : h.output = recorder)
    (p : List Byte) (log : List (List Byte)) :
    (h.call p log).outcome.result = (h.call p []).outcome.result ∧
      (h.call p log).outcome.sink = log ++ (h.call p []).outcome.sink := by
  obtain ⟨output, res⟩ := h
  simp only at ho
  subst ho
  exact Write_recorder_log res p log

/-- C14: `Write` keeps no state between calls.  A call leaves the struct of the
logger as it was; so, with a sink that accepts and keeps every write, for
every pair of buffers `a` and `b` the call `Write(b)` made on the logger after
`Write(a)` gives back what `Write(b)` gives back on a fresh sink and appends to
the sink exactly what it writes on a fresh sink.  For a well-formed `b` that
is the line of the record decoded from `b` alone, the fields starting empty;
and a well-formed buffer written twice leaves its line twice. -/
theorem Write_keeps_no_state (h : HumanReadableLogger (List (List Byte)))
    (ho : h.output = recorder) (a b : List Byte) (log : List (List Byte)) :
    (h.call a log).receiver = h ∧
    ((h.call a log).receiver.call b (h.call a log).outcome.sink).outcome.result =
      (h.call b []).outcome.result ∧
    ((h.call a log).receiver.call b (h.call a log).outcome.sink).outcome.sink =
      (h.call a log).outcome.sink ++ (h.call b []).outcome.sink ∧
    (∀ (rest q : List Byte) (l : logEntry) (date zone : List Byte),
      b = 123 :: rest → cleanup h.toRemove b = .ok q →
      Decode q logEntry.zero = .ok (l, none) →
      index (Split l.Time 46) 0 = .ok date → index (Split l.Time 43) 1 = .ok zone →
      ((h.call a log).receiver.call b (h.call a log).outcome.sink).outcome =
        .returned (formatted date zone l).length none
          ((h.call a log).outcome.sink ++ [formatted date zone l])) ∧
    (∀ (rest q : List Byte) (l : logEntry) (date zone : List Byte),
      a = 123 :: rest → cleanup h.toRemove a = .ok q →
      Decode q logEntry.zero = .ok (l, none) →
      index (Split l.Time 46) 0 = .ok date → index (Split l.Time 43) 1 = .ok zone →
      ((h.call a []).receiver.call a (h.call a []).outcome.sink).outcome.sink =
        [formatted date zone l, formatted date zone l]) := by
  have hf : ∀ (x rest q : List Byte) (l : logEntry) (date zone : List Byte)
      (s : List (List Byte)),
      x = 123 :: rest → cleanup h.toRemove x = .ok q →
      Decode q logEntry.zero = .ok (l, none) →
      index (Split l.Time 46) 0 = .ok date → index (Split l.Time 43) 1 = .ok zone →
      (h.call x s).outcome =
        .returned (formatted date zone l).length none (s ++ [formatted date zone l]) := by
    intro x rest q l date zone s hx hc hd hdate hzone
    subst hx
    show h.Write (123 :: rest) s = _
    rw [Write_formatted h rest q s l date zone hc hd hdate hzone, ho]
    rfl
  refine ⟨rfl, (call_recorder h ho b _).1, (call_recorder h ho b _).2, ?_, ?_⟩
  · intro rest q l date zone hb hc hd hdate hzone
    exact hf b rest q l date zone _ hb hc hd hdate hzone
  · intro rest q l date zone ha hc hd hdate hzone
    show (h.call a (h.call a []).outcome.sink).outcome.sink = _
    rw [hf a rest q l date zone [] ha hc hd hdate hzone,
      hf a rest q l date zone _ ha hc hd hdate hzone]
    rfl

/-- The example record and then a record that holds a time only, written to
one logger made by `New`: the second line has its own time and empty fields,
nothing of the first record; and the example record written twice leaves its
line twice. -/
theorem Write_keeps_no_state_witness :
    (((New recorder).call sampleBuffer []).receiver.call timeOnlyBuffer
        ((New recorder).call sampleBuffer []).outcome.sink).outcome =
      .returned 20 none
        [bytes "2023-05-01T10:20:30+02:00 [ INFO] main.go:42: hello\n",
         bytes "1+02:00 [     ] :: \n"] ∧
    (((New recorder).call sampleBuffer []).receiver.call sampleBuffer
        ((New recorder).call sampleBuffer []).outcome.sink).outcome.sink =
      [bytes "2023-05-01T10:20:30+02:00 [ INFO] main.go:42: hello\n",
       bytes "2023-05-01T10:20:30+02:00 [ INFO] main.go:42: hello\n"] ∧
    (((New recorder).call sampleBuffer []).receiver.call timeOnlyBuffer
        ((New recorder).call sampleBuffer []).outcome.sink).outcome.sink =
      ((New recorder).call sampleBuffer []).outcome.sink ++
        ((New recorder).call timeOnlyBuffer []).outcome.sink :=
  ⟨by decide, by decide,
   (Write_keeps_no_state (New recorder) rfl sampleBuffer timeOnlyBuffer []).2.2.1⟩

end humanlog
